import Mathlib

/-!
Shallow embedding of the `inventorize` repository (Rust) in Lean 4.

Source files embedded:
  * `src/util.rs`     — hex codec (`bytes_to_hex_string`, `hex_string_to_bytes`),
    `is_hidden`, `FileError` (an I/O error carrying the offending path).
  * `src/hash.rs`     — `HashAlgorithm`, `HashValue`, multi-digest `Hasher`
    (`new` / `update` / `finalize_reset` / `compute`).
  * `src/iterdir.rs`  — recursive directory traversal (`DirectoryIterator`),
    modelled as a recursion over an explicit directory tree.
  * `src/inventory.rs`— `Configuration`, `Record`, `Report`, `FailureKind`,
    `Inventory` with `build` / `check` / `update` / `add_file`.

Modelling conventions:
  * Bytes are `Nat` values (`< 256` where it matters); machine `u64` sizes are `Nat`
    (no arithmetic is performed on them, only equality tests, so overflow is moot).
  * The third-party digest crates (`md5`, `sha1`) are not part of this repository;
    a digest state is modelled as the exact byte sequence fed since the last reset,
    and the finalization function is an abstract parameter `D : DigestFn`.
  * `BTreeMap<HashAlgorithm, HashValue>` is modelled as a key-sorted association
    list built by sorted insertion (`hashesOfList`); `BTreeMap<PathBuf, Record>` is
    modelled as an association list (its ordering is immaterial to the claims).
  * Filesystem interaction is split into the directory tree seen by the traversal
    (`Repo.entries`) and the per-file probes (`Repo.meta` for `fs::metadata(...).len()`,
    `Repo.content` for open-for-read), keyed by root-relative path (the repository
    root is constant within each operation, so the `repository.join(rel)` step is
    dropped); a probe returning `none` is the corresponding I/O error, which lets the
    model express a file disappearing between the snapshot and the probe.
  * `HashSet` iteration order is unspecified in Rust; the model iterates the
    underlying lists in a fixed order, and every theorem below is stated so that it
    holds for any iteration order (membership-level statements, or first-failure
    statements that quantify over the other elements).
-/

set_option autoImplicit false

namespace Inventorize

/-! ### Hex codec, from `src/util.rs` -/

/-- `nibble_to_char` from `src/util.rs`: ASCII code of the hex digit of a nibble
(`b'0' = 48`, `b'a' = 97`). -/
def nibble_to_char (n : Nat) : Nat :=
  if n ≤ 9 then 48 + n else 97 + n - 10

/-- `char_to_nibble` from `src/util.rs`: numeric value of a hex character,
accepting both cases (`b'0'..b'9'`, `b'a'..b'f'`, `b'A'..b'F'`). -/
def char_to_nibble (c : Nat) : Option Nat :=
  if 48 ≤ c ∧ c ≤ 57 then some (c - 48)
  else if 97 ≤ c ∧ c ≤ 102 then some (10 + c - 97)
  else if 65 ≤ c ∧ c ≤ 70 then some (10 + c - 65)
  else none

/-- `bytes_to_hex_string` from `src/util.rs`: two hex characters per byte, high
nibble first (`x >> 4` is `x / 16`, `x & 0x0f` is `x % 16` on `u8`). The produced
string is pure ASCII and is modelled as its byte sequence. -/
def bytes_to_hex_string : List Nat → List Nat
  | [] => []
  | x :: xs => nibble_to_char (x / 16) :: nibble_to_char (x % 16) :: bytes_to_hex_string xs

/-- The pair-consuming loop of `hex_string_to_bytes`: each pair of characters
decodes to `hi << 4 | lo`; a character that fails to decode aborts with `none`.
The single-leftover case is unreachable under the even-length guard (the source
uses `unwrap()` there). -/
def hex_pairs_to_bytes : List Nat → Option (List Nat)
  | [] => some []
  | hi :: lo :: rest => do
      let h ← char_to_nibble hi
      let l ← char_to_nibble lo
      let bs ← hex_pairs_to_bytes rest
      pure ((h * 16 + l) :: bs)
  | [_] => none

/-- `hex_string_to_bytes` from `src/util.rs`: rejects odd-length input up front,
then decodes character pairs, aborting with `none` on any non-hex character. -/
def hex_string_to_bytes (s : List Nat) : Option (List Nat) :=
  if s.length % 2 ≠ 0 then none else hex_pairs_to_bytes s

/-- `is_hidden` from `src/util.rs`, applied to an entry's final path component:
`name.starts_with(".")`, i.e. the first character is a dot. -/
def is_hidden (name : String) : Bool :=
  match name.data with
  | [] => false
  | c :: _ => c == '.'

/-! ### Multi-digest hasher, from `src/hash.rs` -/

/-- `HashAlgorithm` from `src/hash.rs`: closed set `{Md5, Sha1}` with the derived
order `Md5 < Sha1`. -/
inductive HashAlgorithm where
  | md5
  | sha1
deriving DecidableEq, Repr

/-- Rank of a `HashAlgorithm` realizing the derived `Ord` of the source. -/
def HashAlgorithm.toNat : HashAlgorithm → Nat
  | .md5 => 0
  | .sha1 => 1

/-- A `HashValue` is an opaque byte sequence (`Box<[u8]>`). -/
abbrev HashValue := List Nat

/-- Abstract model of the third-party digest crates (`md5`, `sha1`): the
finalized digest of an algorithm over the full byte sequence fed to its state.
These crates are external to the repository, so the function is a parameter. -/
abbrev DigestFn := HashAlgorithm → List Nat → HashValue

/-- `Hasher` from `src/hash.rs`. A running `DynDigest` state is modelled by the
exact byte sequence fed to it since the last reset. -/
structure Hasher where
  digests : List (HashAlgorithm × List Nat)
deriving DecidableEq, Repr

/-- `Hasher::new`: one fresh digest state per requested algorithm, in iteration
order. The `debug_assert!(!digests.is_empty())` of the source is compiled out in
release builds and is modelled as absent. -/
def Hasher.new (algorithms : List HashAlgorithm) : Hasher :=
  ⟨algorithms.map fun a => (a, [])⟩

/-- `Hasher::update`: feed a chunk of data to every digest state. -/
def Hasher.update (h : Hasher) (data : List Nat) : Hasher :=
  ⟨h.digests.map fun ad => (ad.1, ad.2 ++ data)⟩

/-- The reset part of `Hasher::finalize_reset`: every digest state returns to
its fresh (empty) state. -/
def hasherReset (h : Hasher) : Hasher :=
  ⟨h.digests.map fun ad => (ad.1, [])⟩

/-- `Hasher::finalize_reset`: finalize every digest state (producing the pairs
in digest order) and reset all states. -/
def Hasher.finalize_reset (D : DigestFn) (h : Hasher) :
    Hasher × List (HashAlgorithm × HashValue) :=
  (hasherReset h, h.digests.map fun ad => (ad.1, D ad.1 ad.2))

/-- One `Read::read` result of the source stream fed to `Hasher::compute`:
either a successfully read chunk (an empty chunk signals end of stream) or a
read failure. -/
inductive ReadResult where
  | chunk (data : List Nat)
  | readFail
deriving DecidableEq, Repr

/-- `Hasher::compute` from `src/hash.rs`: read the stream chunk by chunk,
feeding every non-empty chunk to all digest states; a zero-length read ends the
loop and triggers `finalize_reset`; a read failure propagates the I/O error
immediately — before `finalize_reset` runs — leaving the partially-fed digest
states in place. -/
def Hasher.compute (D : DigestFn) (h : Hasher) :
    List ReadResult → Hasher × Except Unit (List (HashAlgorithm × HashValue))
  | [] => ((h.finalize_reset D).1, .ok (h.finalize_reset D).2)
  | .readFail :: _ => (h, .error ())
  | .chunk [] :: _ => ((h.finalize_reset D).1, .ok (h.finalize_reset D).2)
  | .chunk (b :: bs) :: rest => Hasher.compute D (h.update (b :: bs)) rest

/-- The bytes of a stream up to its end-of-stream marker: `some` of the
concatenated chunks if no read fails before the end, `none` otherwise. -/
def streamBytes : List ReadResult → Option (List Nat)
  | [] => some []
  | .readFail :: _ => none
  | .chunk [] :: _ => some []
  | .chunk (b :: bs) :: rest => (streamBytes rest).map ((b :: bs) ++ ·)

/-- The bytes a failing stream delivered before its read failure (the chunks
`Hasher::compute` has already fed to the digest states when the error hits). -/
def consumedBytes : List ReadResult → List Nat
  | [] => []
  | .readFail :: _ => []
  | .chunk [] :: _ => []
  | .chunk (b :: bs) :: rest => (b :: bs) ++ consumedBytes rest

/-- The hash pairs `Hasher::compute` produces from a fresh hasher over a fully
read byte sequence: one pair per algorithm, in the hasher's algorithm order. -/
def recomputedHashes (D : DigestFn) (algs : List HashAlgorithm) (bs : List Nat) :
    List (HashAlgorithm × HashValue) :=
  algs.map fun a => (a, D a bs)

/-! ### Data model, from `src/inventory.rs` -/

/-- Paths are modelled as their string representation (`PathBuf`). All paths
handled by the engine are relative to the repository root. -/
abbrev PathBuf := String

/-- Sorted insertion into the association-list model of
`BTreeMap<HashAlgorithm, HashValue>`: keys stay strictly ascending, an equal key
replaces the stored value. -/
def hashesInsert (kv : HashAlgorithm × HashValue) :
    List (HashAlgorithm × HashValue) → List (HashAlgorithm × HashValue)
  | [] => [kv]
  | e :: es =>
    if kv.1.toNat < e.1.toNat then kv :: e :: es
    else if kv.1 = e.1 then kv :: es
    else e :: hashesInsert kv es

/-- `hashes.into_iter().collect::<BTreeMap<_, _>>()`: build the sorted map from
a pair list, later values winning on equal keys. -/
def hashesOfList (l : List (HashAlgorithm × HashValue)) : List (HashAlgorithm × HashValue) :=
  l.foldl (fun m kv => hashesInsert kv m) []

/-- `Record` from `src/inventory.rs`: per-file hashes (a `BTreeMap`, modelled as
a key-sorted association list) and size. -/
structure Record where
  hashes : List (HashAlgorithm × HashValue)
  size : Nat
deriving DecidableEq, Repr

/-- `Record::new`: collect the hash pairs into the map. -/
def Record.new (size : Nat) (hashes : List (HashAlgorithm × HashValue)) : Record :=
  ⟨hashesOfList hashes, size⟩

/-- `FailureKind` from `src/inventory.rs`. -/
inductive FailureKind where
  | missingFromRepository
  | missingFromInventory
  | sizeMismatch
  | hashMismatch
deriving DecidableEq, Repr

/-- `Report` from `src/inventory.rs`: `HashMap<FailureKind, HashSet<PathBuf>>`,
modelled as the list of (kind, path) pairs it contains; `add_failure` is
idempotent per pair, matching the set insertion. -/
structure Report where
  contents : List (FailureKind × PathBuf)
deriving DecidableEq, Repr

/-- `Report::new`. -/
def Report.new : Report := ⟨[]⟩

/-- `Report::is_empty`. -/
def Report.is_empty (r : Report) : Bool := r.contents.isEmpty

/-- `Report::add_failure`: insert the path into the set of the kind (a no-op if
the pair is already recorded). -/
def Report.add_failure (r : Report) (file : PathBuf) (kind : FailureKind) : Report :=
  if (kind, file) ∈ r.contents then r else ⟨r.contents ++ [(kind, file)]⟩

/-- `Configuration` from `src/inventory.rs`. `hash_algorithms` is a `BTreeSet`,
modelled as its (strictly ascending) element list; theorems that rely on the
`BTreeSet` representation invariant state it as an explicit hypothesis. -/
structure Configuration where
  version : String
  skip_hidden : Bool
  hash_algorithms : List HashAlgorithm
deriving DecidableEq, Repr

/-- `Inventory` from `src/inventory.rs`: configuration plus the
`BTreeMap<PathBuf, Record>` of records, modelled as an association list. -/
structure Inventory where
  configuration : Configuration
  records : List (PathBuf × Record)
deriving DecidableEq, Repr

/-- `Inventory::new`. -/
def Inventory.new (configuration : Configuration) : Inventory :=
  ⟨configuration, []⟩

/-- `BTreeMap::get` on the records map. -/
def recordsLookup (m : List (PathBuf × Record)) (p : PathBuf) : Option Record :=
  match m with
  | [] => none
  | e :: es => if e.1 = p then some e.2 else recordsLookup es p

/-- `BTreeMap::insert` on the records map: replace the value of an existing key,
otherwise add the binding. -/
def recordsInsert (m : List (PathBuf × Record)) (p : PathBuf) (r : Record) :
    List (PathBuf × Record) :=
  match m with
  | [] => [(p, r)]
  | e :: es => if e.1 = p then (p, r) :: es else e :: recordsInsert es p r

/-- `BTreeMap::remove` on the records map. -/
def recordsRemove (m : List (PathBuf × Record)) (p : PathBuf) : List (PathBuf × Record) :=
  m.filter fun e => e.1 ≠ p

/-! ### Directory traversal, from `src/iterdir.rs` -/

/-- One directory entry of the repository tree: a regular file, a readable
subdirectory, or a subdirectory whose `read_dir` fails when the traversal tries
to descend into it (the traversal then yields an error item). -/
inductive Entry where
  | file (name : String)
  | dir (name : String) (entries : List Entry)
  | badDir (name : String)
deriving Repr

/-- The final path component of an entry (what `util::is_hidden` examines). -/
def Entry.name : Entry → String
  | .file n => n
  | .dir n _ => n
  | .badDir n => n

/-- `PathBuf::push` for the relative paths the traversal produces. -/
def pathJoin (pre name : String) : String :=
  if pre = "" then name else pre ++ "/" ++ name

mutual

/-- The sequence of items `DirectoryIterator::relative_paths` yields for one
directory entry, given the relative path `pre` of its parent directory: hidden
entries (files and directories alike) are dropped when `skip_hidden` is set; a
file yields its relative path; a directory is descended into immediately
(depth-first); a directory whose `read_dir` fails yields one error item (and the
traversal then continues with the following siblings). -/
def traverseEntry (skip_hidden : Bool) (pre : String) : Entry → List (Except Unit PathBuf)
  | .file n => if skip_hidden && is_hidden n then [] else [.ok (pathJoin pre n)]
  | .dir n es =>
    if skip_hidden && is_hidden n then [] else traverseEntries skip_hidden (pathJoin pre n) es
  | .badDir n => if skip_hidden && is_hidden n then [] else [.error ()]

/-- The items yielded for a directory's entry list, in order. -/
def traverseEntries (skip_hidden : Bool) (pre : String) : List Entry → List (Except Unit PathBuf)
  | [] => []
  | e :: es => traverseEntry skip_hidden pre e ++ traverseEntries skip_hidden pre es

end

mutual

/-- Removal of hidden entries from a tree, recursively: the subtree a
`skip_hidden` traversal actually sees. Used to express "hidden files added to or
removed from the repository" as trees with equal pruned forms. -/
def pruneEntry : Entry → List Entry
  | .file n => if is_hidden n then [] else [.file n]
  | .dir n es => if is_hidden n then [] else [.dir n (pruneEntries es)]
  | .badDir n => if is_hidden n then [] else [.badDir n]

/-- `pruneEntry` over an entry list. -/
def pruneEntries : List Entry → List Entry
  | [] => []
  | e :: es => pruneEntry e ++ pruneEntries es

end

/-- The repository as the engine observes it: the directory tree the traversal
walks, and the two per-file probes used afterwards — `meta p` models
`fs::metadata(repository.join(p)).len()` and `content p` models opening
`repository.join(p)` for read (`none` is the respective I/O error; a probe may
disagree with the tree, modelling files changing between snapshot and probe). -/
structure Repo where
  entries : List Entry
  meta : PathBuf → Option Nat
  content : PathBuf → Option (List ReadResult)

/-- `collect::<Result<HashSet<_>, _>>()` over the traversal items: the path
list, or the first error. -/
def collectPaths : List (Except Unit PathBuf) → Except Unit (List PathBuf)
  | [] => .ok []
  | .error e :: _ => .error e
  | .ok p :: rest => (collectPaths rest).map (p :: ·)

/-- `HashSet::difference`: elements of `a` not in `b`. -/
def diffL (a b : List PathBuf) : List PathBuf :=
  a.filter fun p => !(b.contains p)

/-- `HashSet::intersection`: elements of `a` also in `b`. -/
def interL (a b : List PathBuf) : List PathBuf :=
  a.filter fun p => b.contains p

/-! ### Inventory engine, from `src/inventory.rs` -/

/-- The error type of the engine operations: `FileError` (from `src/util.rs`)
carries the offending path; traversal errors and raw stream-read errors are
propagated without a path. -/
inductive IoErr where
  | fileError (path : PathBuf)
  | other
deriving DecidableEq, Repr

/-- `Inventory::add_file`: probe the file's metadata and open it (each failure
is a `FileError` carrying the path), compute the hashes (a stream-read failure
propagates without a path), and insert the new `Record`. Returns the updated
inventory and the (reset) hasher. -/
def Inventory.add_file (D : DigestFn) (inv : Inventory) (repo : Repo) (rel_path : PathBuf)
    (hasher : Hasher) : Except IoErr (Inventory × Hasher) :=
  match repo.meta rel_path with
  | none => .error (.fileError rel_path)
  | some size =>
    match repo.content rel_path with
    | none => .error (.fileError rel_path)
    | some src =>
      match Hasher.compute D hasher src with
      | (_, .error _) => .error .other
      | (h2, .ok hashes) =>
        .ok ({ inv with records := recordsInsert inv.records rel_path (Record.new size hashes) },
          h2)

/-- The `files.try_for_each(|r| r.and_then(|p| inventory.add_file(...)))` loop of
`Inventory::build`: traversal items are consumed in order, an error item or a
failing `add_file` aborts (dropping the partial inventory, which `build` never
returns). -/
def buildLoop (D : DigestFn) (repo : Repo) :
    List (Except Unit PathBuf) → Inventory → Hasher → Except IoErr Inventory
  | [], inv, _ => .ok inv
  | .error _ :: _, _, _ => .error .other
  | .ok p :: rest, inv, h =>
    match inv.add_file D repo p h with
    | .error e => .error e
    | .ok (inv2, h2) => buildLoop D repo rest inv2 h2

/-- `Inventory::build`: traverse the repository with the configuration's
`skip_hidden` flag and add every discovered file, sharing one hasher. -/
def Inventory.build (D : DigestFn) (configuration : Configuration) (repo : Repo) :
    Except IoErr Inventory :=
  buildLoop D repo (traverseEntries configuration.skip_hidden "" repo.entries)
    (Inventory.new configuration) (Hasher.new configuration.hash_algorithms)

/-- The per-file body of `Inventory::check`'s verification loop: read the size
(metadata failure is a `FileError` with the path); on size mismatch record
`SizeMismatch` and skip hashing; otherwise, if `check_hashes`, open the file
(failure is a `FileError` with the path), recompute the hashes (a stream-read
failure propagates without a path) and record `HashMismatch` when the recomputed
map differs from the record's. -/
def checkFile (D : DigestFn) (repo : Repo) (check_hashes : Bool) (rec : Record)
    (file : PathBuf) (hasher : Hasher) (report : Report) : Except IoErr (Hasher × Report) :=
  match repo.meta file with
  | none => .error (.fileError file)
  | some len =>
    if len ≠ rec.size then .ok (hasher, report.add_failure file .sizeMismatch)
    else if check_hashes then
      match repo.content file with
      | none => .error (.fileError file)
      | some src =>
        match Hasher.compute D hasher src with
        | (_, .error _) => .error .other
        | (h2, .ok pairs) =>
          if hashesOfList pairs ≠ rec.hashes then
            .ok (h2, report.add_failure file .hashMismatch)
          else .ok (h2, report)
    else .ok (hasher, report)

/-- `Inventory::check`'s verification loop over the paths present in both sets,
threading the shared hasher and the report. The record lookup cannot miss (the
path is a key of the records map); the `unwrap()` is modelled by a default. -/
def checkLoop (D : DigestFn) (repo : Repo) (records : List (PathBuf × Record))
    (check_hashes : Bool) : List PathBuf → Hasher → Report → Except IoErr Report
  | [], _, report => .ok report
  | file :: rest, hasher, report =>
    match checkFile D repo check_hashes ((recordsLookup records file).getD ⟨[], 0⟩)
        file hasher report with
    | .error e => .error e
    | .ok (h2, r2) => checkLoop D repo records check_hashes rest h2 r2

/-- `Inventory::check`: snapshot the repository paths (honoring the
configuration's `skip_hidden`) and the recorded paths, report the two set
differences as `MissingFromInventory` / `MissingFromRepository`, then verify the
intersection file by file. -/
def Inventory.check (D : DigestFn) (inv : Inventory) (repo : Repo) (check_hashes : Bool) :
    Except IoErr Report :=
  let hasher := Hasher.new inv.configuration.hash_algorithms
  match collectPaths (traverseEntries inv.configuration.skip_hidden "" repo.entries) with
  | .error _ => .error .other
  | .ok repository_files =>
    let inventory_files := inv.records.map Prod.fst
    let report :=
      (diffL repository_files inventory_files).foldl
        (fun r p => r.add_failure p .missingFromInventory) Report.new
    let report :=
      (diffL inventory_files repository_files).foldl
        (fun r p => r.add_failure p .missingFromRepository) report
    checkLoop D repo inv.records check_hashes (interL inventory_files repository_files)
      hasher report

/-- The `try_for_each` addition loop of `Inventory::update` over the
repository-only paths. Unlike `build`, the receiver is the live inventory, so
the state reached when an error aborts the loop is returned alongside the
error. -/
def updateLoop (D : DigestFn) (repo : Repo) :
    List PathBuf → Inventory → Hasher → Inventory × Option IoErr
  | [], inv, _ => (inv, none)
  | p :: rest, inv, h =>
    match inv.add_file D repo p h with
    | .error e => (inv, some e)
    | .ok (inv2, h2) => updateLoop D repo rest inv2 h2

/-- `Inventory::update`: snapshot both path sets, add every repository-only
path with the same `add_file` logic as `build`, then — only if the addition
phase completed and `remove_missing` is set — delete the records of
inventory-only paths. Returns the final inventory state and the error, if any
(`&mut self` keeps its mutations on the error path). -/
def Inventory.update (D : DigestFn) (inv : Inventory) (repo : Repo) (remove_missing : Bool) :
    Inventory × Option IoErr :=
  let hasher := Hasher.new inv.configuration.hash_algorithms
  match collectPaths (traverseEntries inv.configuration.skip_hidden "" repo.entries) with
  | .error _ => (inv, some .other)
  | .ok repository_files =>
    let inventory_files := inv.records.map Prod.fst
    match updateLoop D repo (diffL repository_files inventory_files) inv hasher with
    | (inv2, some e) => (inv2, some e)
    | (inv2, none) =>
      if remove_missing then
        ({ inv2 with
            records := (diffL inventory_files repository_files).foldl
              (fun m p => recordsRemove m p) inv2.records }, none)
      else (inv2, none)

/-! ### Pure per-file characterizations (used to state the theorems) -/

/-- The `Record` that a successful `add_file` of path `p` inserts: the probed
size and the hashes of the probed content, computed with a fresh hasher over the
algorithm list `algs`. `none` when any of the probes or reads fails. -/
def addRecord (D : DigestFn) (algs : List HashAlgorithm) (repo : Repo) (p : PathBuf) :
    Option Record :=
  match repo.meta p with
  | none => none
  | some size =>
    match repo.content p with
    | none => none
    | some src => (streamBytes src).map fun bs => Record.new size (recomputedHashes D algs bs)

/-- Outcome of the per-file verification probe of `check`: either an I/O error
aborting the whole check, or the failure (if any) recorded for the file. -/
inductive ProbeResult where
  | ioError (e : IoErr)
  | outcome (k : Option FailureKind)
deriving DecidableEq, Repr

/-- Whether a probe completed without an I/O error. -/
def ProbeResult.isOutcome : ProbeResult → Bool
  | .ioError _ => false
  | .outcome _ => true

/-- Hasher-free description of `checkFile` (valid when the hasher entering the
file is fresh): metadata failure and open failure are `FileError`s carrying the
path, a stream-read failure is a bare I/O error; otherwise the recorded failure
is `SizeMismatch` on size difference (content never read), else `HashMismatch`
exactly when `check_hashes` is set and the recomputed map differs. -/
def fileProbe (D : DigestFn) (repo : Repo) (algs : List HashAlgorithm) (check_hashes : Bool)
    (rec : Record) (file : PathBuf) : ProbeResult :=
  match repo.meta file with
  | none => .ioError (.fileError file)
  | some len =>
    if len ≠ rec.size then .outcome (some .sizeMismatch)
    else if check_hashes then
      match repo.content file with
      | none => .ioError (.fileError file)
      | some src =>
        match streamBytes src with
        | none => .ioError .other
        | some bs =>
          if hashesOfList (recomputedHashes D algs bs) ≠ rec.hashes then
            .outcome (some .hashMismatch)
          else .outcome none
    else .outcome none

/-- Record the outcome of a per-file probe in the report: no failure leaves the
report unchanged, a failure kind is added for the file. -/
def Report.addOpt (r : Report) (file : PathBuf) : Option FailureKind → Report
  | none => r
  | some k => r.add_failure file k

/-- A concrete digest function for witnesses and counterexamples: the digest of
a byte sequence is the sequence itself (an ideal, collision-free stand-in for
the external md5/sha1 implementations). -/
def idDigest : DigestFn := fun _ bs => bs

/-- Concrete configuration fixture: md5 only, hidden files not skipped. -/
def cfgW : Configuration := ⟨"1.0", false, [.md5]⟩

/-- Concrete record fixture: the record of a one-byte file `[1]` under
`idDigest`. -/
def recW : Record := ⟨[(.md5, [1])], 1⟩

/-- Concrete inventory fixture tracking the single file `"a"`. -/
def invW : Inventory := ⟨cfgW, [("a", recW)]⟩

/-- Concrete repository fixture matching `invW` exactly. -/
def repoW : Repo :=
  ⟨[.file "a"],
   fun p => if p = "a" then some 1 else none,
   fun p => if p = "a" then some [.chunk [1]] else none⟩

/-- `repoW` with the tracked file `"a"` deleted from the tree. -/
def repoDelW : Repo :=
  ⟨[],
   fun p => if p = "a" then some 1 else none,
   fun p => if p = "a" then some [.chunk [1]] else none⟩

/-- `repoW` with every per-file probe failing (the file vanished between the
snapshot and the probe). -/
def repoErrW : Repo :=
  ⟨[.file "a"], fun _ => none, fun _ => none⟩

/-- Repository fixture with a readable empty file `"a"` and a file `"b"` whose
metadata probe fails: an update addition loop adds `"a"` and then aborts. -/
def repoAddW : Repo :=
  ⟨[.file "a", .file "b"],
   fun p => if p = "a" then some 0 else none,
   fun p => if p = "a" then some [] else none⟩

/-- The record `add_file` computes for an empty file under `cfgW`. -/
def recAW : Record := ⟨[(.md5, [])], 0⟩

/-- Repository fixture containing the tracked file `"a"` and a new empty file
`"b"`, both fully readable. -/
def repoABW : Repo :=
  ⟨[.file "a", .file "b"],
   fun p => if p = "a" then some 1 else if p = "b" then some 0 else none,
   fun p => if p = "a" then some [.chunk [1]] else if p = "b" then some [] else none⟩

/-- Configuration fixture whose algorithm set is empty. -/
def cfgEmptyW : Configuration := ⟨"1.0", false, []⟩

/-- Configuration fixture with `skip_hidden` set. -/
def cfgHiddenW : Configuration := ⟨"1.0", true, [.md5]⟩

/-- A metadata probe that always fails (shared between hidden-file fixtures so
the probe functions are literally equal). -/
def probeMetaNone : PathBuf → Option Nat := fun _ => none

/-- A content probe that always fails (shared between hidden-file fixtures). -/
def probeContentNone : PathBuf → Option (List ReadResult) := fun _ => none

/-- Repository fixture containing only a hidden file. -/
def repoHid1W : Repo := ⟨[.file ".h"], probeMetaNone, probeContentNone⟩

/-- The same repository with the hidden file removed. -/
def repoHid2W : Repo := ⟨[], probeMetaNone, probeContentNone⟩

/-! ### Hex codec lemmas -/

theorem char_to_nibble_nibble_to_char {n : Nat} (h : n ≤ 15) :
    char_to_nibble (nibble_to_char n) = some n := by
  interval_cases n <;> rfl

theorem nibble_to_char_range {n : Nat} (h : n ≤ 15) :
    (48 ≤ nibble_to_char n ∧ nibble_to_char n ≤ 57) ∨
      (97 ≤ nibble_to_char n ∧ nibble_to_char n ≤ 102) := by
  unfold nibble_to_char
  split
  · left; omega
  · right; omega

theorem bytes_to_hex_string_length (b : List Nat) :
    (bytes_to_hex_string b).length = 2 * b.length := by
  induction b with
  | nil => rfl
  | cons x xs ih => simp [bytes_to_hex_string, ih]; omega

theorem hex_pairs_to_bytes_encode (b : List Nat) (hb : ∀ x ∈ b, x < 256) :
    hex_pairs_to_bytes (bytes_to_hex_string b) = some b := by
  induction b with
  | nil => rfl
  | cons x xs ih =>
    have hx : x < 256 := hb x (List.mem_cons_self _ _)
    have hdiv : x / 16 ≤ 15 := by omega
    have hmod : x % 16 ≤ 15 := by omega
    have hrest := ih fun y hy => hb y (List.mem_cons_of_mem _ hy)
    simp only [bytes_to_hex_string, hex_pairs_to_bytes,
      char_to_nibble_nibble_to_char hdiv, char_to_nibble_nibble_to_char hmod, hrest,
      Option.bind_some, Option.some_bind, Option.bind_eq_bind]
    have : x / 16 * 16 + x % 16 = x := by omega
    simp [this]

theorem hex_pairs_to_bytes_eq_none_iff (s : List Nat) (hs : s.length % 2 = 0) :
    hex_pairs_to_bytes s = none ↔ ∃ c ∈ s, char_to_nibble c = none := by
  induction s using hex_pairs_to_bytes.induct with
  | case1 => simp [hex_pairs_to_bytes]
  | case2 hi lo rest ih =>
    have hrest : rest.length % 2 = 0 := by
      simp only [List.length_cons] at hs
      omega
    have ihr := ih hrest
    simp only [hex_pairs_to_bytes, Option.bind_eq_bind, List.mem_cons]
    cases hhi : char_to_nibble hi with
    | none =>
      simp only [Option.none_bind]
      exact ⟨fun _ => ⟨hi, Or.inl rfl, hhi⟩, fun _ => trivial⟩
    | some h =>
      cases hlo : char_to_nibble lo with
      | none =>
        simp only [Option.some_bind, Option.none_bind]
        exact ⟨fun _ => ⟨lo, Or.inr (Or.inl rfl), hlo⟩, fun _ => trivial⟩
      | some l =>
        cases hr : hex_pairs_to_bytes rest with
        | none =>
          rw [hr] at ihr
          simp only [Option.some_bind, Option.none_bind]
          refine ⟨fun _ => ?_, fun _ => trivial⟩
          obtain ⟨c, hc, hcn⟩ := ihr.mp rfl
          exact ⟨c, Or.inr (Or.inr hc), hcn⟩
        | some bs =>
          rw [hr] at ihr
          simp only [Option.some_bind, Option.pure_def]
          constructor
          · intro hcontra
            cases hcontra
          · rintro ⟨c, hc | hc | hc, hcn⟩
            · simp [hc, hhi] at hcn
            · simp [hc, hlo] at hcn
            · exact absurd (ihr.mpr ⟨c, hc, hcn⟩) (by simp)
  | case3 x =>
    simp at hs

theorem bytes_to_hex_string_chars (b : List Nat) (hb : ∀ x ∈ b, x < 256) :
    ∀ c ∈ bytes_to_hex_string b,
      (48 ≤ c ∧ c ≤ 57) ∨ (97 ≤ c ∧ c ≤ 102) := by
  induction b with
  | nil => simp [bytes_to_hex_string]
  | cons x xs ih =>
    have hx : x < 256 := hb x (List.mem_cons_self _ _)
    intro c hc
    simp only [bytes_to_hex_string, List.mem_cons] at hc
    rcases hc with hc | hc | hc
    · exact hc ▸ nibble_to_char_range (by omega)
    · exact hc ▸ nibble_to_char_range (by omega)
    · exact ih (fun y hy => hb y (List.mem_cons_of_mem _ hy)) c hc

/-- C7: hex round-trip — `hex_string_to_bytes (bytes_to_hex_string b) = some b`
for every byte sequence `b`; the encoding is exactly two characters per byte,
all of them lowercase hex digits (digit or lowercase letter ranges); and
decoding returns `none` — never a partial byte sequence — exactly for inputs of
odd length or containing a character outside `[0-9a-fA-F]` (so both upper- and
lower-case digits are accepted). -/
theorem C7_hex_codec (b s : List Nat) (hb : ∀ x ∈ b, x < 256) :
    hex_string_to_bytes (bytes_to_hex_string b) = some b ∧
      (bytes_to_hex_string b).length = 2 * b.length ∧
      (∀ c ∈ bytes_to_hex_string b, (48 ≤ c ∧ c ≤ 57) ∨ (97 ≤ c ∧ c ≤ 102)) ∧
      (hex_string_to_bytes s = none ↔
        s.length % 2 = 1 ∨ ∃ c ∈ s, char_to_nibble c = none) := by
  refine ⟨?_, bytes_to_hex_string_length b, bytes_to_hex_string_chars b hb, ?_⟩
  · unfold hex_string_to_bytes
    rw [bytes_to_hex_string_length]
    simp only [Nat.mul_mod_right, ne_eq, not_true_eq_false, if_false, ite_false]
    simpa using hex_pairs_to_bytes_encode b hb
  · unfold hex_string_to_bytes
    by_cases hpar : s.length % 2 = 0
    · rw [if_neg (by omega)]
      rw [hex_pairs_to_bytes_eq_none_iff s hpar]
      constructor
      · exact Or.inr
      · rintro (h | h)
        · omega
        · exact h
    · rw [if_pos (by omega)]
      simp only [true_iff]
      left
      omega

/-- Witness for C7 at a concrete input: bytes `[0, 171, 255]` round-trip, and
the odd-length hypothesis side conditions hold. -/
theorem C7_hex_codec_witness :
    (∀ x ∈ [0, 171, 255], x < 256) ∧
      (hex_string_to_bytes (bytes_to_hex_string [0, 171, 255]) = some [0, 171, 255] ∧
        (bytes_to_hex_string [0, 171, 255]).length = 2 * ([0, 171, 255] : List Nat).length ∧
        (∀ c ∈ bytes_to_hex_string [0, 171, 255],
          (48 ≤ c ∧ c ≤ 57) ∨ (97 ≤ c ∧ c ≤ 102)) ∧
        (hex_string_to_bytes [97, 98, 99] = none ↔
          ([97, 98, 99] : List Nat).length % 2 = 1 ∨
            ∃ c ∈ [97, 98, 99], char_to_nibble c = none)) :=
  ⟨by decide, C7_hex_codec [0, 171, 255] [97, 98, 99] (by decide)⟩

/-! ### Hasher lemmas -/

theorem hasher_update_nil (h : Hasher) : h.update [] = h := by
  unfold Hasher.update
  simp

theorem hasher_update_update (h : Hasher) (d d' : List Nat) :
    (h.update d).update d' = h.update (d ++ d') := by
  unfold Hasher.update
  simp [List.map_map, Function.comp_def, List.append_assoc]

theorem hasherReset_update (h : Hasher) (d : List Nat) :
    hasherReset (h.update d) = hasherReset h := by
  unfold hasherReset Hasher.update
  simp [List.map_map, Function.comp_def]

theorem hasherReset_new (algs : List HashAlgorithm) :
    hasherReset (Hasher.new algs) = Hasher.new algs := by
  unfold hasherReset Hasher.new
  simp [List.map_map, Function.comp_def]

/-- On a fully readable stream, `compute` feeds all bytes to every digest state,
returns the finalized values and resets the states. -/
theorem compute_ok_of_streamBytes (D : DigestFn) (h : Hasher) (src : List ReadResult)
    (bs : List Nat) (hsb : streamBytes src = some bs) :
    Hasher.compute D h src =
      (hasherReset h, .ok (h.digests.map fun ad => (ad.1, D ad.1 (ad.2 ++ bs)))) := by
  induction src generalizing h bs with
  | nil =>
    simp only [streamBytes, Option.some.injEq] at hsb
    subst hsb
    simp [Hasher.compute, Hasher.finalize_reset]
  | cons r rest ih =>
    cases r with
    | readFail => simp [streamBytes] at hsb
    | chunk data =>
      cases data with
      | nil =>
        simp only [streamBytes, Option.some.injEq] at hsb
        subst hsb
        simp [Hasher.compute, Hasher.finalize_reset]
      | cons b bt =>
        simp only [streamBytes, Option.map_eq_some'] at hsb
        obtain ⟨bs', hbs', rfl⟩ := hsb
        show Hasher.compute D (h.update (b :: bt)) rest = _
        rw [ih _ _ hbs', hasherReset_update]
        simp [Hasher.update, List.map_map, Function.comp_def, List.append_assoc]

/-- On a stream whose read fails, `compute` aborts before `finalize_reset`,
leaving every digest state extended by exactly the chunks read so far. -/
theorem compute_err_of_streamBytes (D : DigestFn) (h : Hasher) (src : List ReadResult)
    (hsb : streamBytes src = none) :
    Hasher.compute D h src = (h.update (consumedBytes src), .error ()) := by
  induction src generalizing h with
  | nil => simp [streamBytes] at hsb
  | cons r rest ih =>
    cases r with
    | readFail =>
      rw [consumedBytes, hasher_update_nil]
      rfl
    | chunk data =>
      cases data with
      | nil => simp [streamBytes] at hsb
      | cons b bt =>
        simp only [streamBytes, Option.map_eq_none'] at hsb
        show Hasher.compute D (h.update (b :: bt)) rest = _
        rw [ih _ hsb, hasher_update_update, consumedBytes]

/-- `compute` from a fresh hasher produces exactly the per-algorithm digests of
the stream's bytes and leaves the hasher fresh again. -/
theorem compute_new_ok (D : DigestFn) (algs : List HashAlgorithm) (src : List ReadResult)
    (bs : List Nat) (hsb : streamBytes src = some bs) :
    Hasher.compute D (Hasher.new algs) src =
      (Hasher.new algs, .ok (recomputedHashes D algs bs)) := by
  rw [compute_ok_of_streamBytes D _ src bs hsb, hasherReset_new]
  simp [Hasher.new, recomputedHashes, List.map_map, Function.comp_def]

/-- C2 counterexample: after a failed `compute`, the same `Hasher` instance does
not behave like a fresh one. Feeding one byte and then failing leaves that byte
in the digest state: a subsequent `compute` over the empty stream digests `[1]`,
while a freshly constructed `Hasher` digests `[]`, and the two hash value lists
differ. -/
theorem C2_counterexample :
    (Hasher.compute idDigest (Hasher.new [.md5]) [.chunk [1], .readFail]).2 = .error () ∧
      (Hasher.compute idDigest
          (Hasher.compute idDigest (Hasher.new [.md5]) [.chunk [1], .readFail]).1 []).2 =
        .ok [(.md5, [1])] ∧
      (Hasher.compute idDigest (Hasher.new [.md5]) []).2 = .ok [(.md5, [])] ∧
      [((.md5 : HashAlgorithm), ([1] : List Nat))] ≠ [(.md5, [])] :=
  ⟨rfl, rfl, rfl, by decide⟩

/-- C2 (amended): a failed `compute` leaves observable leftover state — the
precise residue is the concatenation of the chunks read before the failure,
appended to every digest state; a subsequent successful `compute` on the same
instance therefore digests the leftover bytes prepended to the new stream's
bytes (so the caller must construct a fresh `Hasher` after a failure). -/
theorem C2_failed_compute_residue (D : DigestFn) (h : Hasher) (src : List ReadResult)
    (hsb : streamBytes src = none) :
    Hasher.compute D h src = (h.update (consumedBytes src), .error ()) ∧
      ∀ src2 bs2, streamBytes src2 = some bs2 →
        (Hasher.compute D (Hasher.compute D h src).1 src2).2 =
          .ok (h.digests.map fun ad => (ad.1, D ad.1 (ad.2 ++ (consumedBytes src ++ bs2)))) := by
  refine ⟨compute_err_of_streamBytes D h src hsb, ?_⟩
  intro src2 bs2 h2
  rw [compute_err_of_streamBytes D h src hsb]
  rw [compute_ok_of_streamBytes D _ src2 bs2 h2]
  simp [Hasher.update, List.map_map, Function.comp_def, List.append_assoc]

/-- Witness for the amended C2 at a concrete input: a stream failing after one
chunk, followed by an empty stream. -/
theorem C2_failed_compute_residue_witness :
    streamBytes [.chunk [1], .readFail] = none ∧
      (Hasher.compute idDigest (Hasher.new [.md5]) [.chunk [1], .readFail] =
          ((Hasher.new [.md5]).update (consumedBytes [.chunk [1], .readFail]), .error ()) ∧
        ∀ src2 bs2, streamBytes src2 = some bs2 →
          (Hasher.compute idDigest
              (Hasher.compute idDigest (Hasher.new [.md5]) [.chunk [1], .readFail]).1 src2).2 =
            .ok ((Hasher.new [.md5]).digests.map fun ad =>
              (ad.1, idDigest ad.1 (ad.2 ++ (consumedBytes [.chunk [1], .readFail] ++ bs2)))) ) :=
  ⟨rfl, C2_failed_compute_residue idDigest (Hasher.new [.md5]) [.chunk [1], .readFail] rfl⟩

/-! ### Report and set-operation lemmas -/

theorem mem_add_failure (r : Report) (f : PathBuf) (k k' : FailureKind) (q : PathBuf) :
    (k', q) ∈ (r.add_failure f k).contents ↔ (k', q) ∈ r.contents ∨ (k' = k ∧ q = f) := by
  unfold Report.add_failure
  split
  · rename_i hmem
    constructor
    · exact Or.inl
    · rintro (h | ⟨rfl, rfl⟩)
      · exact h
      · exact hmem
  · simp [List.mem_append, Prod.ext_iff]

theorem mem_addOpt (r : Report) (f : PathBuf) (o : Option FailureKind) (k : FailureKind)
    (q : PathBuf) :
    (k, q) ∈ (r.addOpt f o).contents ↔ (k, q) ∈ r.contents ∨ (o = some k ∧ q = f) := by
  cases o with
  | none => simp [Report.addOpt]
  | some k0 =>
    simp only [Report.addOpt, mem_add_failure, Option.some.injEq]
    constructor
    · rintro (h | ⟨rfl, rfl⟩)
      · exact Or.inl h
      · exact Or.inr ⟨rfl, rfl⟩
    · rintro (h | ⟨rfl, rfl⟩)
      · exact Or.inl h
      · exact Or.inr ⟨rfl, rfl⟩

theorem mem_foldl_add_failure (l : List PathBuf) (k0 : FailureKind) (r : Report)
    (k : FailureKind) (q : PathBuf) :
    (k, q) ∈ (l.foldl (fun r p => r.add_failure p k0) r).contents ↔
      (k, q) ∈ r.contents ∨ (k = k0 ∧ q ∈ l) := by
  induction l generalizing r with
  | nil => simp
  | cons p rest ih =>
    simp only [List.foldl_cons, ih, mem_add_failure, List.mem_cons]
    tauto

theorem mem_diffL (a b : List PathBuf) (p : PathBuf) : p ∈ diffL a b ↔ p ∈ a ∧ p ∉ b := by
  simp [diffL, List.mem_filter]

theorem mem_interL (a b : List PathBuf) (p : PathBuf) : p ∈ interL a b ↔ p ∈ a ∧ p ∈ b := by
  simp [interL, List.mem_filter]

/-! ### Records map lemmas -/

theorem recordsLookup_insert (m : List (PathBuf × Record)) (p : PathBuf) (r : Record)
    (q : PathBuf) :
    recordsLookup (recordsInsert m p r) q = if p = q then some r else recordsLookup m q := by
  induction m with
  | nil => rfl
  | cons e es ih =>
    by_cases hep : e.1 = p
    · simp only [recordsInsert, if_pos hep, recordsLookup]
      by_cases hpq : p = q
      · simp [hpq]
      · have heq : ¬e.1 = q := by rw [hep]; exact hpq
        simp [hpq, heq]
    · simp only [recordsInsert, if_neg hep, recordsLookup, ih]
      by_cases heq : e.1 = q
      · have hpq : ¬p = q := fun h => hep (by rw [h, heq])
        simp [heq, hpq]
      · simp [heq]

theorem recordsLookup_remove (m : List (PathBuf × Record)) (p q : PathBuf) :
    recordsLookup (recordsRemove m p) q = if p = q then none else recordsLookup m q := by
  induction m with
  | nil =>
    simp only [recordsRemove, List.filter_nil, recordsLookup]
    by_cases h : p = q <;> simp [h]
  | cons e es ih =>
    by_cases hep : e.1 = p
    · simp only [recordsRemove, List.filter_cons] at *
      rw [if_neg (by simp [hep])]
      rw [ih]
      by_cases hpq : p = q
      · simp [hpq]
      · rw [if_neg hpq, if_neg hpq, recordsLookup, if_neg (show ¬e.1 = q by rw [hep]; exact hpq)]
    · simp only [recordsRemove, List.filter_cons] at *
      rw [if_pos (by simp [hep])]
      by_cases heq : e.1 = q
      · rw [recordsLookup, if_pos heq, if_neg (show ¬p = q by rw [← heq]; intro h; exact hep h.symm)]
        rw [recordsLookup, if_pos heq]
      · rw [recordsLookup, if_neg heq, ih, recordsLookup, if_neg heq]

theorem recordsLookup_foldl_remove (l : List PathBuf) (m : List (PathBuf × Record))
    (q : PathBuf) :
    recordsLookup (l.foldl (fun m p => recordsRemove m p) m) q =
      if q ∈ l then none else recordsLookup m q := by
  induction l generalizing m with
  | nil => simp
  | cons p rest ih =>
    simp only [List.foldl_cons, ih, recordsLookup_remove, List.mem_cons]
    by_cases hq : q ∈ rest
    · simp [hq]
    · by_cases hpq : q = p
      · simp [hq, hpq]
      · simp [hq, hpq, show ¬p = q from fun h => hpq h.symm]

theorem mem_keys_of_recordsLookup (m : List (PathBuf × Record)) (q : PathBuf) (r : Record)
    (h : recordsLookup m q = some r) : q ∈ m.map Prod.fst := by
  induction m with
  | nil => simp [recordsLookup] at h
  | cons e es ih =>
    simp only [recordsLookup] at h
    by_cases heq : e.1 = q
    · simp [← heq]
    · rw [if_neg heq] at h
      exact List.mem_cons_of_mem _ (ih h)

theorem recordsLookup_isSome_of_mem_keys (m : List (PathBuf × Record)) (q : PathBuf)
    (h : q ∈ m.map Prod.fst) : ∃ r, recordsLookup m q = some r := by
  induction m with
  | nil => simp at h
  | cons e es ih =>
    simp only [List.map_cons, List.mem_cons] at h
    by_cases heq : e.1 = q
    · exact ⟨e.2, by simp [recordsLookup, heq]⟩
    · rcases h with h | h
      · exact absurd h.symm heq
      · obtain ⟨r, hr⟩ := ih h
        exact ⟨r, by simp [recordsLookup, heq, hr]⟩

/-! ### Sorted hash-map lemmas -/

theorem hashAlgorithm_toNat_inj {a b : HashAlgorithm} (h : a.toNat = b.toNat) : a = b := by
  cases a <;> cases b <;> first | rfl | simp [HashAlgorithm.toNat] at h

theorem hashesInsert_append (kv : HashAlgorithm × HashValue)
    (m : List (HashAlgorithm × HashValue)) (h : ∀ e ∈ m, e.1.toNat < kv.1.toNat) :
    hashesInsert kv m = m ++ [kv] := by
  induction m with
  | nil => rfl
  | cons e es ih =>
    have he := h e (List.mem_cons_self _ _)
    simp only [hashesInsert]
    rw [if_neg (by omega), if_neg (fun heq => by rw [heq] at he; omega)]
    rw [ih fun f hf => h f (List.mem_cons_of_mem _ hf)]
    rfl

theorem foldl_hashesInsert_sorted (l acc : List (HashAlgorithm × HashValue))
    (hcross : ∀ e ∈ acc, ∀ f ∈ l, e.1.toNat < f.1.toNat)
    (hl : l.Pairwise fun a b => a.1.toNat < b.1.toNat) :
    l.foldl (fun m kv => hashesInsert kv m) acc = acc ++ l := by
  induction l generalizing acc with
  | nil => simp
  | cons kv rest ih =>
    rw [List.foldl_cons,
      hashesInsert_append kv acc (fun e he => hcross e he kv (List.mem_cons_self _ _))]
    rw [List.pairwise_cons] at hl
    rw [ih (acc ++ [kv]) ?_ hl.2]
    · simp
    · intro e he f hf
      rcases List.mem_append.mp he with he | he
      · exact hcross e he f (List.mem_cons_of_mem _ hf)
      · simp only [List.mem_singleton] at he
        subst he
        exact hl.1 f hf

theorem hashesOfList_sorted (l : List (HashAlgorithm × HashValue))
    (hl : l.Pairwise fun a b => a.1.toNat < b.1.toNat) : hashesOfList l = l := by
  unfold hashesOfList
  rw [foldl_hashesInsert_sorted l [] (by simp) hl]
  rfl

theorem record_new_recomputed (D : DigestFn) (algs : List HashAlgorithm) (bs : List Nat)
    (size : Nat) (hs : algs.Pairwise fun a b => a.toNat < b.toNat) :
    (Record.new size (recomputedHashes D algs bs)).hashes = recomputedHashes D algs bs ∧
      (Record.new size (recomputedHashes D algs bs)).hashes.map Prod.fst = algs := by
  have hp : (recomputedHashes D algs bs).Pairwise fun a b => a.1.toNat < b.1.toNat := by
    unfold recomputedHashes
    exact List.pairwise_map.mpr hs
  constructor
  · show hashesOfList _ = _
    exact hashesOfList_sorted _ hp
  · show (hashesOfList _).map Prod.fst = _
    rw [hashesOfList_sorted _ hp]
    simp [recomputedHashes, List.map_map, Function.comp_def]

/-! ### `check` loop lemmas -/

/-- With a fresh hasher, one step of the verification loop behaves exactly as
the pure `fileProbe` describes, and leaves the hasher fresh on success. -/
theorem checkFile_spec (D : DigestFn) (repo : Repo) (algs : List HashAlgorithm)
    (check_hashes : Bool) (rec : Record) (file : PathBuf) (report : Report) :
    checkFile D repo check_hashes rec file (Hasher.new algs) report =
      match fileProbe D repo algs check_hashes rec file with
      | .ioError e => .error e
      | .outcome o => .ok (Hasher.new algs, report.addOpt file o) := by
  unfold checkFile fileProbe
  cases hm : repo.meta file with
  | none => rfl
  | some len =>
    by_cases hsz : len ≠ rec.size
    · simp only [if_pos hsz]
      rfl
    · simp only [if_neg hsz]
      cases check_hashes with
      | false => rfl
      | true =>
        simp only [if_true]
        cases hc : repo.content file with
        | none => rfl
        | some src =>
          dsimp only
          cases hsb : streamBytes src with
          | none =>
            rw [compute_err_of_streamBytes D _ src hsb]
          | some bs =>
            rw [compute_new_ok D algs src bs hsb]
            by_cases hh : hashesOfList (recomputedHashes D algs bs) ≠ rec.hashes
            · simp only [if_pos hh]
              rfl
            · simp only [if_neg hh]
              rfl

/-- If the loop completes, every visited file's probe completed without an I/O
error. -/
theorem checkLoop_ok_probe (D : DigestFn) (repo : Repo) (records : List (PathBuf × Record))
    (check_hashes : Bool) (files : List PathBuf) (algs : List HashAlgorithm) (rep : Report)
    (r' : Report)
    (h : checkLoop D repo records check_hashes files (Hasher.new algs) rep = .ok r') :
    ∀ f ∈ files,
      (fileProbe D repo algs check_hashes
        ((recordsLookup records f).getD ⟨[], 0⟩) f).isOutcome := by
  induction files generalizing rep with
  | nil => simp
  | cons f rest ih =>
    rw [checkLoop, checkFile_spec] at h
    cases hp : fileProbe D repo algs check_hashes ((recordsLookup records f).getD ⟨[], 0⟩) f with
    | ioError e =>
      rw [hp] at h
      simp at h
    | outcome o =>
      rw [hp] at h
      simp only at h
      intro g hg
      rcases List.mem_cons.mp hg with rfl | hg
      · simp [hp, ProbeResult.isOutcome]
      · exact ih _ h g hg

/-- Membership in the final report of a completed loop: the initial report's
pairs, plus each visited file's own probe outcome. -/
theorem checkLoop_ok_mem (D : DigestFn) (repo : Repo) (records : List (PathBuf × Record))
    (check_hashes : Bool) (files : List PathBuf) (algs : List HashAlgorithm) (rep : Report)
    (r' : Report)
    (h : checkLoop D repo records check_hashes files (Hasher.new algs) rep = .ok r')
    (k : FailureKind) (q : PathBuf) :
    ((k, q) ∈ r'.contents ↔ (k, q) ∈ rep.contents ∨
      (q ∈ files ∧ fileProbe D repo algs check_hashes
        ((recordsLookup records q).getD ⟨[], 0⟩) q = .outcome (some k))) := by
  induction files generalizing rep with
  | nil =>
    rw [checkLoop] at h
    cases h
    simp
  | cons f rest ih =>
    rw [checkLoop, checkFile_spec] at h
    cases hp : fileProbe D repo algs check_hashes ((recordsLookup records f).getD ⟨[], 0⟩) f with
    | ioError e =>
      rw [hp] at h
      simp at h
    | outcome o =>
      rw [hp] at h
      simp only at h
      rw [ih _ h, mem_addOpt, List.mem_cons]
      constructor
      · rintro ((hm | ⟨ho, rfl⟩) | ⟨hq, hP⟩)
        · exact Or.inl hm
        · exact Or.inr ⟨Or.inl rfl, by rw [hp, ho]⟩
        · exact Or.inr ⟨Or.inr hq, hP⟩
      · rintro (hm | ⟨rfl | hq, hP⟩)
        · exact Or.inl (Or.inl hm)
        · refine Or.inl (Or.inr ⟨?_, rfl⟩)
          rw [hp] at hP
          injection hP
        · exact Or.inr ⟨hq, hP⟩

/-- If a file of the loop list has a failing probe while every other listed file
probes cleanly, the loop aborts with exactly that file's error. -/
theorem checkLoop_first_err (D : DigestFn) (repo : Repo) (records : List (PathBuf × Record))
    (check_hashes : Bool) (files : List PathBuf) (algs : List HashAlgorithm) (rep : Report)
    (p : PathBuf) (e : IoErr) (hp : p ∈ files)
    (hothers : ∀ q ∈ files, q ≠ p →
      (fileProbe D repo algs check_hashes
        ((recordsLookup records q).getD ⟨[], 0⟩) q).isOutcome)
    (hpe : fileProbe D repo algs check_hashes
        ((recordsLookup records p).getD ⟨[], 0⟩) p = .ioError e) :
    checkLoop D repo records check_hashes files (Hasher.new algs) rep = .error e := by
  induction files generalizing rep with
  | nil => simp at hp
  | cons f rest ih =>
    rw [checkLoop, checkFile_spec]
    by_cases hfp : f = p
    · subst hfp
      rw [hpe]
    · have hf := hothers f (List.mem_cons_self _ _) hfp
      cases hq : fileProbe D repo algs check_hashes
          ((recordsLookup records f).getD ⟨[], 0⟩) f with
      | ioError e2 =>
        rw [hq] at hf
        simp [ProbeResult.isOutcome] at hf
      | outcome o =>
        dsimp only
        have hprest : p ∈ rest := by
          rcases List.mem_cons.mp hp with rfl | hp2
          · exact absurd rfl hfp
          · exact hp2
        exact ih _ hprest fun g hg hgp => hothers g (List.mem_cons_of_mem _ hg) hgp

/-- If any file in the loop list has a failing probe, the loop returns some
error (absence from the repository is never inferred here). -/
theorem checkLoop_err_of_probe_fail (D : DigestFn) (repo : Repo)
    (records : List (PathBuf × Record)) (check_hashes : Bool) (files : List PathBuf)
    (algs : List HashAlgorithm) (rep : Report) (f : PathBuf) (hf : f ∈ files)
    (hfail : ¬ (fileProbe D repo algs check_hashes
        ((recordsLookup records f).getD ⟨[], 0⟩) f).isOutcome = true) :
    ∃ e, checkLoop D repo records check_hashes files (Hasher.new algs) rep = .error e := by
  cases hres : checkLoop D repo records check_hashes files (Hasher.new algs) rep with
  | ok r' => exact absurd (checkLoop_ok_probe D repo records check_hashes files algs rep r'
      hres f hf) hfail
  | error e => exact ⟨e, rfl⟩

/-! ### `check` characterization -/

/-- Unfolding of `Inventory.check` once the traversal snapshot is known. -/
theorem check_eq_loop (D : DigestFn) (inv : Inventory) (repo : Repo) (ch : Bool)
    (rfiles : List PathBuf)
    (hT : collectPaths (traverseEntries inv.configuration.skip_hidden "" repo.entries) =
      .ok rfiles) :
    inv.check D repo ch =
      checkLoop D repo inv.records ch (interL (inv.records.map Prod.fst) rfiles)
        (Hasher.new inv.configuration.hash_algorithms)
        ((diffL (inv.records.map Prod.fst) rfiles).foldl
          (fun r p => r.add_failure p .missingFromRepository)
          ((diffL rfiles (inv.records.map Prod.fst)).foldl
            (fun r p => r.add_failure p .missingFromInventory) Report.new)) := by
  unfold Inventory.check
  rw [hT]

/-- Membership in the report produced by the two set-difference passes. -/
theorem report0_mem (rfiles keys : List PathBuf) (k : FailureKind) (q : PathBuf) :
    ((k, q) ∈ ((diffL keys rfiles).foldl
      (fun r p => r.add_failure p .missingFromRepository)
      ((diffL rfiles keys).foldl
        (fun r p => r.add_failure p .missingFromInventory) Report.new)).contents ↔
      (k = .missingFromRepository ∧ q ∈ keys ∧ q ∉ rfiles) ∨
        (k = .missingFromInventory ∧ q ∈ rfiles ∧ q ∉ keys)) := by
  rw [mem_foldl_add_failure, mem_foldl_add_failure]
  simp only [Report.new, List.not_mem_nil, false_or, mem_diffL]
  tauto

/-- If `check` succeeds, every path in both sets probed without an I/O error. -/
theorem check_ok_probe (D : DigestFn) (inv : Inventory) (repo : Repo) (ch : Bool)
    (rfiles : List PathBuf) (r : Report)
    (hT : collectPaths (traverseEntries inv.configuration.skip_hidden "" repo.entries) =
      .ok rfiles)
    (hr : inv.check D repo ch = .ok r) :
    ∀ f ∈ interL (inv.records.map Prod.fst) rfiles,
      (fileProbe D repo inv.configuration.hash_algorithms ch
        ((recordsLookup inv.records f).getD ⟨[], 0⟩) f).isOutcome := by
  rw [check_eq_loop D inv repo ch rfiles hT] at hr
  exact checkLoop_ok_probe _ _ _ _ _ _ _ _ hr

/-- Full membership characterization of a successful `check`'s report. -/
theorem check_ok_mem (D : DigestFn) (inv : Inventory) (repo : Repo) (ch : Bool)
    (rfiles : List PathBuf) (r : Report)
    (hT : collectPaths (traverseEntries inv.configuration.skip_hidden "" repo.entries) =
      .ok rfiles)
    (hr : inv.check D repo ch = .ok r) (k : FailureKind) (q : PathBuf) :
    ((k, q) ∈ r.contents ↔
      (k = .missingFromRepository ∧ q ∈ inv.records.map Prod.fst ∧ q ∉ rfiles) ∨
      (k = .missingFromInventory ∧ q ∈ rfiles ∧ q ∉ inv.records.map Prod.fst) ∨
      (q ∈ inv.records.map Prod.fst ∧ q ∈ rfiles ∧
        fileProbe D repo inv.configuration.hash_algorithms ch
          ((recordsLookup inv.records q).getD ⟨[], 0⟩) q = .outcome (some k))) := by
  rw [check_eq_loop D inv repo ch rfiles hT] at hr
  rw [checkLoop_ok_mem _ _ _ _ _ _ _ _ hr k q, report0_mem, mem_interL]
  tauto

/-- If a path in both sets has a failing probe while every other such path
probes cleanly, `check` aborts with exactly that path's error. -/
theorem check_first_err (D : DigestFn) (inv : Inventory) (repo : Repo) (ch : Bool)
    (rfiles : List PathBuf) (p : PathBuf) (e : IoErr)
    (hT : collectPaths (traverseEntries inv.configuration.skip_hidden "" repo.entries) =
      .ok rfiles)
    (hp : p ∈ interL (inv.records.map Prod.fst) rfiles)
    (hothers : ∀ q ∈ interL (inv.records.map Prod.fst) rfiles, q ≠ p →
      (fileProbe D repo inv.configuration.hash_algorithms ch
        ((recordsLookup inv.records q).getD ⟨[], 0⟩) q).isOutcome)
    (hpe : fileProbe D repo inv.configuration.hash_algorithms ch
        ((recordsLookup inv.records p).getD ⟨[], 0⟩) p = .ioError e) :
    inv.check D repo ch = .error e := by
  rw [check_eq_loop D inv repo ch rfiles hT]
  exact checkLoop_first_err _ _ _ _ _ _ _ p e hp hothers hpe

/-- If any path in both sets has a failing probe, `check` returns an error. -/
theorem check_err_exists (D : DigestFn) (inv : Inventory) (repo : Repo) (ch : Bool)
    (rfiles : List PathBuf) (f : PathBuf)
    (hT : collectPaths (traverseEntries inv.configuration.skip_hidden "" repo.entries) =
      .ok rfiles)
    (hf : f ∈ interL (inv.records.map Prod.fst) rfiles)
    (hfail : ¬ (fileProbe D repo inv.configuration.hash_algorithms ch
        ((recordsLookup inv.records f).getD ⟨[], 0⟩) f).isOutcome = true) :
    ∃ e, inv.check D repo ch = .error e := by
  rw [check_eq_loop D inv repo ch rfiles hT]
  exact checkLoop_err_of_probe_fail _ _ _ _ _ _ _ f hf hfail

/-! ### `fileProbe` characterizations -/

theorem fileProbe_meta_of_isOutcome (D : DigestFn) (repo : Repo) (algs : List HashAlgorithm)
    (ch : Bool) (rec : Record) (file : PathBuf)
    (h : (fileProbe D repo algs ch rec file).isOutcome) :
    ∃ len, repo.meta file = some len := by
  unfold fileProbe at h
  cases hm : repo.meta file with
  | none =>
    rw [hm] at h
    simp [ProbeResult.isOutcome] at h
  | some len => exact ⟨len, rfl⟩

theorem fileProbe_sizeMismatch_iff (D : DigestFn) (repo : Repo) (algs : List HashAlgorithm)
    (ch : Bool) (rec : Record) (file : PathBuf) (len : Nat) (hm : repo.meta file = some len) :
    (fileProbe D repo algs ch rec file = .outcome (some .sizeMismatch)) ↔ len ≠ rec.size := by
  unfold fileProbe
  rw [hm]
  dsimp only
  by_cases hsz : len ≠ rec.size
  · rw [if_pos hsz]
    simp [hsz]
  · rw [if_neg hsz]
    refine iff_of_false ?_ hsz
    intro hco
    cases ch with
    | false =>
      rw [if_neg (by simp)] at hco
      simp at hco
    | true =>
      rw [if_pos rfl] at hco
      cases hc : repo.content file <;> rw [hc] at hco
      · simp at hco
      · dsimp only at hco
        rename_i src
        cases hsb : streamBytes src with
        | none =>
          rw [hsb] at hco
          simp at hco
        | some bs =>
          rw [hsb] at hco
          dsimp only at hco
          by_cases hh : hashesOfList (recomputedHashes D algs bs) ≠ rec.hashes
          · rw [if_pos hh] at hco
            simp at hco
          · rw [if_neg hh] at hco
            simp at hco

theorem fileProbe_hashMismatch_iff (D : DigestFn) (repo : Repo) (algs : List HashAlgorithm)
    (ch : Bool) (rec : Record) (file : PathBuf) (len : Nat) (hm : repo.meta file = some len) :
    (fileProbe D repo algs ch rec file = .outcome (some .hashMismatch)) ↔
      (len = rec.size ∧ ch = true ∧ ∃ src bs, repo.content file = some src ∧
        streamBytes src = some bs ∧
        hashesOfList (recomputedHashes D algs bs) ≠ rec.hashes) := by
  unfold fileProbe
  rw [hm]
  dsimp only
  by_cases hsz : len ≠ rec.size
  · rw [if_pos hsz]
    simp [hsz, fun h : len = rec.size => hsz h]
  · have hsz' : len = rec.size := not_ne_iff.mp hsz
    subst hsz'
    rw [if_neg hsz]
    simp only [true_and]
    cases ch with
    | false =>
      rw [if_neg (by simp)]
      simp
    | true =>
      rw [if_pos rfl]
      simp only [true_and]
      cases hc : repo.content file with
      | none => simp
      | some src =>
        dsimp only
        cases hsb : streamBytes src with
        | none => simp [hsb]
        | some bs =>
          dsimp only
          by_cases hh : hashesOfList (recomputedHashes D algs bs) ≠ rec.hashes
          · rw [if_pos hh]
            exact ⟨fun _ => ⟨src, bs, rfl, hsb, hh⟩, fun _ => rfl⟩
          · rw [if_neg hh]
            rw [not_not] at hh
            constructor
            · intro hco
              simp at hco
            · rintro ⟨src', bs', hsrc, hsb', hne⟩
              injection hsrc with hsrc'
              subst hsrc'
              rw [hsb] at hsb'
              injection hsb' with hbs'
              subst hbs'
              exact absurd hh hne

theorem fileProbe_outcome_kinds (D : DigestFn) (repo : Repo) (algs : List HashAlgorithm)
    (ch : Bool) (rec : Record) (file : PathBuf) (k : FailureKind)
    (h : fileProbe D repo algs ch rec file = .outcome (some k)) :
    k = .sizeMismatch ∨ k = .hashMismatch := by
  unfold fileProbe at h
  cases hm : repo.meta file with
  | none =>
    rw [hm] at h
    cases h
  | some len =>
    rw [hm] at h
    dsimp only at h
    by_cases hsz : len ≠ rec.size
    · rw [if_pos hsz] at h
      injection h with h1
      injection h1 with h2
      exact Or.inl h2.symm
    · rw [if_neg hsz] at h
      cases ch with
      | false => simp at h
      | true =>
        simp only [if_true] at h
        cases hc : repo.content file with
        | none =>
          rw [hc] at h
          cases h
        | some src =>
          rw [hc] at h
          dsimp only at h
          cases hsb : streamBytes src with
          | none =>
            rw [hsb] at h
            cases h
          | some bs =>
            rw [hsb] at h
            dsimp only at h
            split at h
            · injection h with h1
              injection h1 with h2
              exact Or.inr h2.symm
            · simp at h

/-- The per-file probe aborts with a `FileError` carrying the file's path when
the metadata read fails, or when sizes matched, hashes were requested, and the
open failed. -/
theorem fileProbe_fileError (D : DigestFn) (repo : Repo) (algs : List HashAlgorithm)
    (ch : Bool) (rec : Record) (file : PathBuf)
    (hfail : repo.meta file = none ∨
      (repo.meta file = some rec.size ∧ ch = true ∧ repo.content file = none)) :
    fileProbe D repo algs ch rec file = .ioError (.fileError file) := by
  unfold fileProbe
  rcases hfail with hm | ⟨hm, hch, hc⟩
  · rw [hm]
  · rw [hm, hch]
    dsimp only
    rw [if_neg (by simp), if_pos rfl, hc]

/-! ### Congruence lemmas -/

theorem checkFile_cong (D : DigestFn) (r1 r2 : Repo) (ch : Bool) (rec : Record)
    (file : PathBuf) (h : Hasher) (rep : Report)
    (hm : r1.meta file = r2.meta file) (hc : r1.content file = r2.content file) :
    checkFile D r1 ch rec file h rep = checkFile D r2 ch rec file h rep := by
  unfold checkFile
  rw [hm, hc]

/-- The verification loop only consults the probes of its own files, and never
a file's content once its size mismatched. -/
theorem checkLoop_cong (D : DigestFn) (r1 r2 : Repo) (records : List (PathBuf × Record))
    (ch : Bool) (files : List PathBuf) :
    (∀ f ∈ files, r1.meta f = r2.meta f ∧
      (r1.content f = r2.content f ∨
        ∃ len, r1.meta f = some len ∧ len ≠ ((recordsLookup records f).getD ⟨[], 0⟩).size)) →
    ∀ (h : Hasher) (rep : Report),
      checkLoop D r1 records ch files h rep = checkLoop D r2 records ch files h rep := by
  induction files with
  | nil =>
    intro _ h rep
    rfl
  | cons f rest ih =>
    intro hagree h rep
    have hf := hagree f (List.mem_cons_self _ _)
    have hcf : checkFile D r1 ch ((recordsLookup records f).getD ⟨[], 0⟩) f h rep =
        checkFile D r2 ch ((recordsLookup records f).getD ⟨[], 0⟩) f h rep := by
      rcases hf.2 with hcc | ⟨len, hlen, hne⟩
      · exact checkFile_cong D r1 r2 ch _ f h rep hf.1 hcc
      · unfold checkFile
        rw [← hf.1, hlen]
        dsimp only
        simp only [if_pos hne]
    rw [checkLoop, checkLoop, hcf]
    cases hres : checkFile D r2 ch ((recordsLookup records f).getD ⟨[], 0⟩) f h rep with
    | error e => rfl
    | ok pr =>
      obtain ⟨h2, rep2⟩ := pr
      dsimp only
      exact ih (fun g hg => hagree g (List.mem_cons_of_mem _ hg)) h2 rep2

/-! ### Claims C1, C5, C6 -/

/-- C1: for every path in both the traversal snapshot and the record set,
`check` first reads the size: on a size difference the path is reported
`SizeMismatch` and the file's content is never consulted (the report is
unchanged under any modification of that file's content stream); when sizes
match and `check_hashes` is set, `HashMismatch` is reported exactly when the
recomputed algorithm-to-value map differs from the record's; at most one of the
two kinds is reported for the path, and a quick-mode (`check_hashes = false`)
report never contains any `HashMismatch` entry. -/
theorem C1_check_per_file (D : DigestFn) (inv : Inventory) (repo : Repo) (ch : Bool)
    (rfiles : List PathBuf) (r : Report) (p : PathBuf) (rec : Record)
    (hT : collectPaths (traverseEntries inv.configuration.skip_hidden "" repo.entries) =
      .ok rfiles)
    (hr : inv.check D repo ch = .ok r)
    (hrec : recordsLookup inv.records p = some rec)
    (hp : p ∈ rfiles) :
    ∃ len, repo.meta p = some len ∧
      (((FailureKind.sizeMismatch, p) ∈ r.contents) ↔ len ≠ rec.size) ∧
      (len ≠ rec.size →
        ∀ content2 : PathBuf → Option (List ReadResult),
          (∀ q, q ≠ p → content2 q = repo.content q) →
          inv.check D { repo with content := content2 } ch = .ok r) ∧
      (((FailureKind.hashMismatch, p) ∈ r.contents) ↔ (len = rec.size ∧ ch = true ∧
        ∃ src bs, repo.content p = some src ∧ streamBytes src = some bs ∧
          hashesOfList (recomputedHashes D inv.configuration.hash_algorithms bs) ≠
            rec.hashes)) ∧
      (¬(((FailureKind.sizeMismatch, p) ∈ r.contents) ∧
        ((FailureKind.hashMismatch, p) ∈ r.contents))) ∧
      (ch = false → ∀ q, (FailureKind.hashMismatch, q) ∉ r.contents) := by
  have hkey : p ∈ inv.records.map Prod.fst := mem_keys_of_recordsLookup _ _ _ hrec
  have hgetD : (recordsLookup inv.records p).getD ⟨[], 0⟩ = rec := by rw [hrec]; rfl
  have hinter : p ∈ interL (inv.records.map Prod.fst) rfiles :=
    (mem_interL _ _ _).mpr ⟨hkey, hp⟩
  have hout := check_ok_probe D inv repo ch rfiles r hT hr p hinter
  rw [hgetD] at hout
  obtain ⟨len, hm⟩ := fileProbe_meta_of_isOutcome _ _ _ _ _ _ hout
  have hiff1 : ((FailureKind.sizeMismatch, p) ∈ r.contents) ↔ len ≠ rec.size := by
    rw [check_ok_mem D inv repo ch rfiles r hT hr .sizeMismatch p, hgetD]
    simp [hkey, hp, fileProbe_sizeMismatch_iff D repo inv.configuration.hash_algorithms
      ch rec p len hm]
  have hiff2 : ((FailureKind.hashMismatch, p) ∈ r.contents) ↔
      (len = rec.size ∧ ch = true ∧ ∃ src bs, repo.content p = some src ∧
        streamBytes src = some bs ∧
        hashesOfList (recomputedHashes D inv.configuration.hash_algorithms bs) ≠
          rec.hashes) := by
    rw [check_ok_mem D inv repo ch rfiles r hT hr .hashMismatch p, hgetD]
    simp [hkey, hp, fileProbe_hashMismatch_iff D repo inv.configuration.hash_algorithms
      ch rec p len hm]
  refine ⟨len, hm, hiff1, ?_, hiff2, ?_, ?_⟩
  · intro hsz content2 hc2
    rw [check_eq_loop D inv repo ch rfiles hT] at hr
    rw [check_eq_loop D inv { repo with content := content2 } ch rfiles hT]
    rw [← checkLoop_cong D repo { repo with content := content2 } inv.records ch
      (interL (inv.records.map Prod.fst) rfiles) ?_ (Hasher.new
        inv.configuration.hash_algorithms) _]
    · exact hr
    · intro f _
      refine ⟨rfl, ?_⟩
      by_cases hfp : f = p
      · subst hfp
        exact Or.inr ⟨len, hm, by rw [hgetD]; exact hsz⟩
      · exact Or.inl (hc2 f hfp).symm
  · rintro ⟨hs, hh⟩
    have h1 := hiff1.mp hs
    have h2 := (hiff2.mp hh).1
    exact h1 h2
  · intro hch q hmem
    rw [check_ok_mem D inv repo ch rfiles r hT hr .hashMismatch q] at hmem
    rcases hmem with ⟨hk, _⟩ | ⟨hk, _⟩ | ⟨hqk, hqr, hprobe⟩
    · cases hk
    · cases hk
    · have hqint : q ∈ interL (inv.records.map Prod.fst) rfiles :=
        (mem_interL _ _ _).mpr ⟨hqk, hqr⟩
      have hqout := check_ok_probe D inv repo ch rfiles r hT hr q hqint
      obtain ⟨lenq, hmq⟩ := fileProbe_meta_of_isOutcome _ _ _ _ _ _ hqout
      have := (fileProbe_hashMismatch_iff D repo inv.configuration.hash_algorithms ch
        ((recordsLookup inv.records q).getD ⟨[], 0⟩) q lenq hmq).mp hprobe
      rw [hch] at this
      exact absurd this.2.1 (by simp)

/-- C5: a successful `check` reports `MissingFromInventory` exactly for the
repository-only paths and `MissingFromRepository` exactly for the
inventory-only paths; no path is reported under both kinds; and deleting
exactly one tracked file from an otherwise unmodified tree yields a report
whose only entry is `MissingFromRepository` for that path. -/
theorem C5_check_missing (D : DigestFn) (inv : Inventory) (repo : Repo) (ch : Bool)
    (rfiles : List PathBuf) (r : Report)
    (hT : collectPaths (traverseEntries inv.configuration.skip_hidden "" repo.entries) =
      .ok rfiles)
    (hr : inv.check D repo ch = .ok r) :
    (∀ q, ((FailureKind.missingFromInventory, q) ∈ r.contents ↔
      q ∈ rfiles ∧ q ∉ inv.records.map Prod.fst)) ∧
    (∀ q, ((FailureKind.missingFromRepository, q) ∈ r.contents ↔
      q ∈ inv.records.map Prod.fst ∧ q ∉ rfiles)) ∧
    (∀ q, ¬((FailureKind.missingFromInventory, q) ∈ r.contents ∧
      (FailureKind.missingFromRepository, q) ∈ r.contents)) ∧
    (∀ x, x ∈ inv.records.map Prod.fst →
      (∀ q, q ∈ rfiles ↔ (q ∈ inv.records.map Prod.fst ∧ q ≠ x)) →
      (∀ q ∈ rfiles, fileProbe D repo inv.configuration.hash_algorithms ch
        ((recordsLookup inv.records q).getD ⟨[], 0⟩) q = .outcome none) →
      ∀ k q, ((k, q) ∈ r.contents ↔ (k = FailureKind.missingFromRepository ∧ q = x))) := by
  have hmem := check_ok_mem D inv repo ch rfiles r hT hr
  have h1 : ∀ q, ((FailureKind.missingFromInventory, q) ∈ r.contents ↔
      q ∈ rfiles ∧ q ∉ inv.records.map Prod.fst) := by
    intro q
    rw [hmem .missingFromInventory q]
    constructor
    · rintro (⟨hk, _⟩ | ⟨_, hq⟩ | ⟨_, _, hprobe⟩)
      · cases hk
      · exact hq
      · rcases fileProbe_outcome_kinds _ _ _ _ _ _ _ hprobe with hk | hk <;> cases hk
    · intro hq
      exact Or.inr (Or.inl ⟨rfl, hq⟩)
  have h2 : ∀ q, ((FailureKind.missingFromRepository, q) ∈ r.contents ↔
      q ∈ inv.records.map Prod.fst ∧ q ∉ rfiles) := by
    intro q
    rw [hmem .missingFromRepository q]
    constructor
    · rintro (⟨_, hq⟩ | ⟨hk, _⟩ | ⟨_, _, hprobe⟩)
      · exact hq
      · cases hk
      · rcases fileProbe_outcome_kinds _ _ _ _ _ _ _ hprobe with hk | hk <;> cases hk
    · intro hq
      exact Or.inl ⟨rfl, hq⟩
  refine ⟨h1, h2, ?_, ?_⟩
  · rintro q ⟨ha, hb⟩
    exact ((h1 q).mp ha).2 ((h2 q).mp hb).1
  · intro x hx hrf hclean k q
    rw [hmem k q]
    constructor
    · rintro (⟨hk, hqk, hqr⟩ | ⟨hk, hqr, hqk⟩ | ⟨hqk, hqr, hprobe⟩)
      · refine ⟨hk, ?_⟩
        by_contra hqx
        exact hqr ((hrf q).mpr ⟨hqk, hqx⟩)
      · exact absurd ((hrf q).mp hqr).1 hqk
      · rw [hclean q hqr] at hprobe
        cases hprobe
    · rintro ⟨rfl, rfl⟩
      refine Or.inl ⟨rfl, hx, ?_⟩
      intro hxr
      exact ((hrf _).mp hxr).2 rfl

/-- C6: a failure to read the metadata of — or to open for hashing — a path
present in both the traversal snapshot and the record set makes `check` return
a hard I/O error rather than any report (so the path is never reclassified as
`MissingFromRepository`); and when every other path in both sets probes
cleanly, the returned error is the `FileError` carrying exactly that path. -/
theorem C6_check_probe_error (D : DigestFn) (inv : Inventory) (repo : Repo) (ch : Bool)
    (rfiles : List PathBuf) (p : PathBuf) (rec : Record)
    (hT : collectPaths (traverseEntries inv.configuration.skip_hidden "" repo.entries) =
      .ok rfiles)
    (hrec : recordsLookup inv.records p = some rec)
    (hp : p ∈ rfiles)
    (hfail : repo.meta p = none ∨
      (repo.meta p = some rec.size ∧ ch = true ∧ repo.content p = none)) :
    (∃ e, inv.check D repo ch = .error e) ∧
    ((∀ q ∈ interL (inv.records.map Prod.fst) rfiles, q ≠ p →
        (fileProbe D repo inv.configuration.hash_algorithms ch
          ((recordsLookup inv.records q).getD ⟨[], 0⟩) q).isOutcome) →
      inv.check D repo ch = .error (.fileError p)) := by
  have hkey : p ∈ inv.records.map Prod.fst := mem_keys_of_recordsLookup _ _ _ hrec
  have hgetD : (recordsLookup inv.records p).getD ⟨[], 0⟩ = rec := by rw [hrec]; rfl
  have hinter : p ∈ interL (inv.records.map Prod.fst) rfiles :=
    (mem_interL _ _ _).mpr ⟨hkey, hp⟩
  have hprobe : fileProbe D repo inv.configuration.hash_algorithms ch
      ((recordsLookup inv.records p).getD ⟨[], 0⟩) p = .ioError (.fileError p) := by
    rw [hgetD]
    exact fileProbe_fileError D repo _ ch rec p hfail
  constructor
  · refine check_err_exists D inv repo ch rfiles p hT hinter ?_
    rw [hprobe]
    simp [ProbeResult.isOutcome]
  · intro hothers
    exact check_first_err D inv repo ch rfiles p (.fileError p) hT hinter hothers hprobe

/-- Witness for C1 on the concrete fixture: an unmodified one-file tree. -/
theorem C1_check_per_file_witness :
    collectPaths (traverseEntries invW.configuration.skip_hidden "" repoW.entries) =
        .ok ["a"] ∧
      invW.check idDigest repoW true = .ok ⟨[]⟩ ∧
      recordsLookup invW.records "a" = some recW ∧
      "a" ∈ ["a"] ∧
      (∃ len, repoW.meta "a" = some len ∧
        (((FailureKind.sizeMismatch, "a") ∈ (Report.mk []).contents) ↔ len ≠ recW.size) ∧
        (len ≠ recW.size →
          ∀ content2 : PathBuf → Option (List ReadResult),
            (∀ q, q ≠ "a" → content2 q = repoW.content q) →
            invW.check idDigest { repoW with content := content2 } true = .ok ⟨[]⟩) ∧
        (((FailureKind.hashMismatch, "a") ∈ (Report.mk []).contents) ↔
          (len = recW.size ∧ true = true ∧
            ∃ src bs, repoW.content "a" = some src ∧ streamBytes src = some bs ∧
              hashesOfList (recomputedHashes idDigest invW.configuration.hash_algorithms bs) ≠
                recW.hashes)) ∧
        (¬(((FailureKind.sizeMismatch, "a") ∈ (Report.mk []).contents) ∧
          ((FailureKind.hashMismatch, "a") ∈ (Report.mk []).contents))) ∧
        (true = false → ∀ q, (FailureKind.hashMismatch, q) ∉ (Report.mk []).contents)) :=
  ⟨rfl, rfl, rfl, by simp,
    C1_check_per_file idDigest invW repoW true ["a"] ⟨[]⟩ "a" recW rfl rfl rfl (by simp)⟩

/-- Witness for C5 on the concrete fixture: the tracked file `"a"` deleted from
an otherwise unmodified tree; the report is exactly one `MissingFromRepository`
entry. -/
theorem C5_check_missing_witness :
    collectPaths (traverseEntries invW.configuration.skip_hidden "" repoDelW.entries) =
        .ok [] ∧
      invW.check idDigest repoDelW true = .ok ⟨[(.missingFromRepository, "a")]⟩ ∧
      (∀ k q, ((k, q) ∈ (Report.mk [(.missingFromRepository, "a")]).contents ↔
        (k = FailureKind.missingFromRepository ∧ q = "a"))) :=
  ⟨rfl, rfl, by
    intro k q
    refine (C5_check_missing idDigest invW repoDelW true [] ⟨[(.missingFromRepository, "a")]⟩
      rfl rfl).2.2.2 "a" (by simp [invW]) ?_ ?_ k q
    · intro q2
      constructor
      · intro h
        simp at h
      · rintro ⟨hq2, hne⟩
        simp [invW] at hq2
        exact absurd hq2 hne
    · intro q2 hq2
      simp at hq2⟩

/-- Witness for C6 on the concrete fixture: the tracked file's probes fail even
though the snapshot found it; `check` returns the `FileError` carrying the
path. -/
theorem C6_check_probe_error_witness :
    collectPaths (traverseEntries invW.configuration.skip_hidden "" repoErrW.entries) =
        .ok ["a"] ∧
      recordsLookup invW.records "a" = some recW ∧
      "a" ∈ ["a"] ∧
      (repoErrW.meta "a" = none ∨
        (repoErrW.meta "a" = some recW.size ∧ true = true ∧ repoErrW.content "a" = none)) ∧
      ((∃ e, invW.check idDigest repoErrW true = .error e) ∧
        ((∀ q ∈ interL (invW.records.map Prod.fst) ["a"], q ≠ "a" →
            (fileProbe idDigest repoErrW invW.configuration.hash_algorithms true
              ((recordsLookup invW.records q).getD ⟨[], 0⟩) q).isOutcome) →
          invW.check idDigest repoErrW true = .error (.fileError "a"))) :=
  ⟨rfl, rfl, by simp, Or.inl rfl,
    C6_check_probe_error idDigest invW repoErrW true ["a"] "a" recW rfl rfl (by simp)
      (Or.inl rfl)⟩

/-! ### `add_file`, `update` and `build` lemmas -/

/-- A successful `add_file` from a fresh hasher inserts exactly the
`addRecord`-described record and returns the hasher fresh again. -/
theorem add_file_ok (D : DigestFn) (algs : List HashAlgorithm) (inv : Inventory)
    (repo : Repo) (p : PathBuf) (r : Record) (h : addRecord D algs repo p = some r) :
    inv.add_file D repo p (Hasher.new algs) =
      .ok ({ inv with records := recordsInsert inv.records p r }, Hasher.new algs) := by
  unfold addRecord at h
  unfold Inventory.add_file
  cases hm : repo.meta p with
  | none =>
    rw [hm] at h
    cases h
  | some size =>
    rw [hm] at h
    dsimp only at h ⊢
    cases hc : repo.content p with
    | none =>
      rw [hc] at h
      cases h
    | some src =>
      rw [hc] at h
      dsimp only at h ⊢
      cases hsb : streamBytes src with
      | none =>
        rw [hsb] at h
        cases h
      | some bs =>
        rw [hsb] at h
        simp only [Option.map_some'] at h
        injection h with h'
        rw [compute_new_ok D algs src bs hsb]
        dsimp only
        rw [h']

/-- When `addRecord` is `none`, `add_file` fails with some error. -/
theorem add_file_err (D : DigestFn) (algs : List HashAlgorithm) (inv : Inventory)
    (repo : Repo) (p : PathBuf) (h : addRecord D algs repo p = none) :
    ∃ e, inv.add_file D repo p (Hasher.new algs) = .error e := by
  unfold addRecord at h
  unfold Inventory.add_file
  cases hm : repo.meta p with
  | none => exact ⟨.fileError p, rfl⟩
  | some size =>
    rw [hm] at h
    dsimp only at h ⊢
    cases hc : repo.content p with
    | none => exact ⟨.fileError p, rfl⟩
    | some src =>
      rw [hc] at h
      dsimp only at h ⊢
      cases hsb : streamBytes src with
      | none =>
        rw [compute_err_of_streamBytes D _ src hsb]
        exact ⟨.other, rfl⟩
      | some bs =>
        rw [hsb] at h
        simp at h

/-- Every record `addRecord` can produce is a fresh-hasher record of the
algorithm list. -/
theorem addRecord_shape (D : DigestFn) (algs : List HashAlgorithm) (repo : Repo)
    (q : PathBuf) (r : Record) (h : addRecord D algs repo q = some r) :
    ∃ size bs, r = Record.new size (recomputedHashes D algs bs) := by
  unfold addRecord at h
  cases hm : repo.meta q with
  | none =>
    rw [hm] at h
    cases h
  | some size =>
    rw [hm] at h
    dsimp only at h
    cases hc : repo.content q with
    | none =>
      rw [hc] at h
      cases h
    | some src =>
      rw [hc] at h
      dsimp only at h
      cases hsb : streamBytes src with
      | none =>
        rw [hsb] at h
        cases h
      | some bs =>
        rw [hsb] at h
        simp only [Option.map_some'] at h
        injection h with h'
        exact ⟨size, bs, h'.symm⟩

/-- State evolution of the addition loop of `update`: the configuration is
untouched, files outside the list keep their lookups, every binding of the
result is either an original binding or a freshly computed `addRecord` binding
of a listed file, and on success every listed file is bound to its `addRecord`
value. -/
theorem updateLoop_spec (D : DigestFn) (repo : Repo) (algs : List HashAlgorithm)
    (files : List PathBuf) :
    ∀ (inv inv2 : Inventory) (oe : Option IoErr),
      updateLoop D repo files inv (Hasher.new algs) = (inv2, oe) →
      (inv2.configuration = inv.configuration) ∧
      (∀ q, q ∉ files → recordsLookup inv2.records q = recordsLookup inv.records q) ∧
      (∀ q r2, recordsLookup inv2.records q = some r2 →
        recordsLookup inv.records q = some r2 ∨
          (q ∈ files ∧ addRecord D algs repo q = some r2)) ∧
      (oe = none → ∀ p ∈ files, ∃ r, addRecord D algs repo p = some r ∧
        recordsLookup inv2.records p = some r) := by
  induction files with
  | nil =>
    intro inv inv2 oe h
    rw [updateLoop] at h
    injection h with h1 h2
    subst h1
    subst h2
    exact ⟨rfl, fun q _ => rfl, fun q r2 hq => Or.inl hq, fun _ p hp => absurd hp (by simp)⟩
  | cons p rest ih =>
    intro inv inv2 oe h
    rw [updateLoop] at h
    cases har : addRecord D algs repo p with
    | none =>
      obtain ⟨e, he⟩ := add_file_err D algs inv repo p har
      rw [he] at h
      dsimp only at h
      injection h with h1 h2
      subst h1
      subst h2
      refine ⟨rfl, fun q _ => rfl, fun q r2 hq => Or.inl hq, ?_⟩
      intro hoe
      cases hoe
    | some r =>
      rw [add_file_ok D algs inv repo p r har] at h
      dsimp only at h
      obtain ⟨hcfg, hnot, hlk, hok⟩ := ih _ _ _ h
      refine ⟨hcfg, ?_, ?_, ?_⟩
      · intro q hq
        have hqp : q ≠ p := fun he => hq (he ▸ List.mem_cons_self _ _)
        have hqrest : q ∉ rest := fun hr => hq (List.mem_cons_of_mem _ hr)
        rw [hnot q hqrest]
        show recordsLookup (recordsInsert inv.records p r) q = _
        rw [recordsLookup_insert, if_neg (fun hpq => hqp hpq.symm)]
      · intro q r2 hq
        rcases hlk q r2 hq with hq' | ⟨hqrest, har'⟩
        · rw [show ({ inv with records := recordsInsert inv.records p r } :
              Inventory).records = recordsInsert inv.records p r from rfl,
            recordsLookup_insert] at hq'
          by_cases hpq : p = q
          · rw [if_pos hpq] at hq'
            injection hq' with h'
            subst hpq
            exact Or.inr ⟨List.mem_cons_self _ _, h' ▸ har⟩
          · rw [if_neg hpq] at hq'
            exact Or.inl hq'
        · exact Or.inr ⟨List.mem_cons_of_mem _ hqrest, har'⟩
      · intro hoe q hq
        rcases List.mem_cons.mp hq with rfl | hqrest
        · by_cases hpr : q ∈ rest
          · exact hok hoe q hpr
          · refine ⟨r, har, ?_⟩
            rw [hnot q hpr]
            show recordsLookup (recordsInsert inv.records q r) q = some r
            rw [recordsLookup_insert, if_pos rfl]
        · exact hok hoe q hqrest

/-- State evolution of the `build` loop on success. -/
theorem buildLoop_spec (D : DigestFn) (repo : Repo) (algs : List HashAlgorithm)
    (items : List (Except Unit PathBuf)) :
    ∀ (inv inv2 : Inventory), buildLoop D repo items inv (Hasher.new algs) = .ok inv2 →
      (inv2.configuration = inv.configuration) ∧
      (∀ q r2, recordsLookup inv2.records q = some r2 →
        recordsLookup inv.records q = some r2 ∨ addRecord D algs repo q = some r2) := by
  induction items with
  | nil =>
    intro inv inv2 h
    rw [buildLoop] at h
    injection h with h1
    subst h1
    exact ⟨rfl, fun q r2 hq => Or.inl hq⟩
  | cons it rest ih =>
    intro inv inv2 h
    cases it with
    | error e =>
      rw [buildLoop] at h
      cases h
    | ok p =>
      rw [buildLoop] at h
      cases har : addRecord D algs repo p with
      | none =>
        obtain ⟨e, he⟩ := add_file_err D algs inv repo p har
        rw [he] at h
        cases h
      | some r =>
        rw [add_file_ok D algs inv repo p r har] at h
        dsimp only at h
        obtain ⟨hcfg, hlk⟩ := ih _ _ h
        refine ⟨hcfg, ?_⟩
        intro q r2 hq
        rcases hlk q r2 hq with hq' | har2
        · rw [show ({ inv with records := recordsInsert inv.records p r } :
              Inventory).records = recordsInsert inv.records p r from rfl,
            recordsLookup_insert] at hq'
          by_cases hpq : p = q
          · rw [if_pos hpq] at hq'
            injection hq' with h'
            subst hpq
            exact Or.inr (h' ▸ har)
          · rw [if_neg hpq] at hq'
            exact Or.inl hq'
        · exact Or.inr har2

/-- The `build` loop succeeds when every traversal item is a readable file. -/
theorem buildLoop_ok_exists (D : DigestFn) (repo : Repo) (algs : List HashAlgorithm)
    (items : List (Except Unit PathBuf)) :
    ∀ inv : Inventory,
      (∀ it ∈ items, ∃ p, it = .ok p ∧ ∃ r, addRecord D algs repo p = some r) →
      ∃ inv2, buildLoop D repo items inv (Hasher.new algs) = .ok inv2 := by
  induction items with
  | nil =>
    intro inv _
    exact ⟨inv, rfl⟩
  | cons it rest ih =>
    intro inv hall
    obtain ⟨p, rfl, r, har⟩ := hall it (List.mem_cons_self _ _)
    rw [buildLoop, add_file_ok D algs inv repo p r har]
    dsimp only
    exact ih _ fun it2 h2 => hall it2 (List.mem_cons_of_mem _ h2)

/-- Unfolding of `Inventory.update` when the addition loop fails: the loop's
final state and error are returned as is, and the removal phase never runs. -/
theorem update_eq_err (D : DigestFn) (inv : Inventory) (repo : Repo) (rm : Bool)
    (rfiles : List PathBuf) (inv2 : Inventory) (e : IoErr)
    (hT : collectPaths (traverseEntries inv.configuration.skip_hidden "" repo.entries) =
      .ok rfiles)
    (hu : updateLoop D repo (diffL rfiles (inv.records.map Prod.fst)) inv
      (Hasher.new inv.configuration.hash_algorithms) = (inv2, some e)) :
    inv.update D repo rm = (inv2, some e) := by
  unfold Inventory.update
  rw [hT]
  dsimp only
  rw [hu]

/-- Unfolding of `Inventory.update` on success without `remove_missing`. -/
theorem update_eq_ok_keep (D : DigestFn) (inv : Inventory) (repo : Repo)
    (rfiles : List PathBuf) (inv2 : Inventory)
    (hT : collectPaths (traverseEntries inv.configuration.skip_hidden "" repo.entries) =
      .ok rfiles)
    (hu : updateLoop D repo (diffL rfiles (inv.records.map Prod.fst)) inv
      (Hasher.new inv.configuration.hash_algorithms) = (inv2, none)) :
    inv.update D repo false = (inv2, none) := by
  unfold Inventory.update
  rw [hT]
  dsimp only
  rw [hu]
  rfl

/-- Unfolding of `Inventory.update` on success with `remove_missing`: the
records of inventory-only paths are removed from the loop's final state. -/
theorem update_eq_ok_remove (D : DigestFn) (inv : Inventory) (repo : Repo)
    (rfiles : List PathBuf) (inv2 : Inventory)
    (hT : collectPaths (traverseEntries inv.configuration.skip_hidden "" repo.entries) =
      .ok rfiles)
    (hu : updateLoop D repo (diffL rfiles (inv.records.map Prod.fst)) inv
      (Hasher.new inv.configuration.hash_algorithms) = (inv2, none)) :
    inv.update D repo true =
      ({ inv2 with records := List.foldl (fun m p => recordsRemove m p) inv2.records (diffL (inv.records.map Prod.fst) rfiles) }, none) := by
  unfold Inventory.update
  rw [hT]
  dsimp only
  rw [hu]
  rfl

/-- `add_file` consults only its own file's probes. -/
theorem add_file_cong (D : DigestFn) (r1 r2 : Repo) (inv : Inventory) (p : PathBuf)
    (h : Hasher) (hm : r1.meta p = r2.meta p) (hc : r1.content p = r2.content p) :
    inv.add_file D r1 p h = inv.add_file D r2 p h := by
  unfold Inventory.add_file
  rw [hm, hc]

/-- The addition loop of `update` consults only the probes of its listed
files. -/
theorem updateLoop_cong (D : DigestFn) (r1 r2 : Repo) (files : List PathBuf) :
    (∀ f ∈ files, r1.meta f = r2.meta f ∧ r1.content f = r2.content f) →
    ∀ (inv : Inventory) (h : Hasher),
      updateLoop D r1 files inv h = updateLoop D r2 files inv h := by
  induction files with
  | nil =>
    intro _ inv h
    rfl
  | cons p rest ih =>
    intro hag inv h
    have hp := hag p (List.mem_cons_self _ _)
    rw [updateLoop, updateLoop, add_file_cong D r1 r2 inv p h hp.1 hp.2]
    cases inv.add_file D r2 p h with
    | error e => rfl
    | ok pr =>
      obtain ⟨inv2, h2⟩ := pr
      dsimp only
      exact ih (fun g hg => hag g (List.mem_cons_of_mem _ hg)) inv2 h2

/-! ### Claims C3 and C4 -/

/-- C3 counterexample: `update` is not atomic on the in-memory record map. On a
repository with a readable new file `"a"` and a new file `"b"` whose metadata
probe fails, `update` returns the error for `"b"` while the record for `"a"`
has already been inserted — the record map is no longer its pre-call value
(the empty map). -/
theorem C3_counterexample :
    Inventory.update idDigest ⟨cfgW, []⟩ repoAddW false =
        (⟨cfgW, [("a", recAW)]⟩, some (.fileError "b")) ∧
      ([("a", recAW)] : List (PathBuf × Record)) ≠ [] :=
  ⟨rfl, by simp⟩

/-- C3 (amended): if `update` returns an error, no record has been removed or
modified — every binding present before the call is intact with its exact
value — but the map may additionally contain records for repository-only paths
processed before the error, each computed exactly as `build` computes it
(`addRecord`); the removal phase runs only after the addition phase completes,
so an error never causes a removal. -/
theorem C3_update_error_state (D : DigestFn) (inv : Inventory) (repo : Repo) (rm : Bool)
    (inv2 : Inventory) (e : IoErr)
    (h : inv.update D repo rm = (inv2, some e)) :
    (∀ q r, recordsLookup inv.records q = some r → recordsLookup inv2.records q = some r) ∧
    (∀ q r2, recordsLookup inv.records q = none → recordsLookup inv2.records q = some r2 →
      addRecord D inv.configuration.hash_algorithms repo q = some r2) := by
  unfold Inventory.update at h
  cases hT : collectPaths (traverseEntries inv.configuration.skip_hidden "" repo.entries) with
  | error e0 =>
    rw [hT] at h
    dsimp only at h
    injection h with h1 h2
    subst h1
    constructor
    · intro q r hq
      exact hq
    · intro q r2 hq hq2
      rw [hq] at hq2
      cases hq2
  | ok rfiles =>
    rw [hT] at h
    dsimp only at h
    cases hu : updateLoop D repo (diffL rfiles (inv.records.map Prod.fst)) inv
        (Hasher.new inv.configuration.hash_algorithms) with
    | mk inv3 oe =>
      rw [hu] at h
      obtain ⟨hcfg, hnot, hlk, hok⟩ := updateLoop_spec D repo _ _ inv inv3 oe hu
      cases oe with
      | some e2 =>
        dsimp only at h
        injection h with h1 h2
        subst h1
        constructor
        · intro q r hq
          have hqk : q ∈ inv.records.map Prod.fst := mem_keys_of_recordsLookup _ _ _ hq
          have hqnf : q ∉ diffL rfiles (inv.records.map Prod.fst) := by
            rw [mem_diffL]
            rintro ⟨_, hnk⟩
            exact hnk hqk
          rw [hnot q hqnf]
          exact hq
        · intro q r2 hq hq2
          rcases hlk q r2 hq2 with hq' | ⟨_, har⟩
          · rw [hq] at hq'
            cases hq'
          · exact har
      | none =>
        cases rm with
        | false => simp at h
        | true => simp at h

/-- Witness for the amended C3 at the counterexample input. -/
theorem C3_update_error_state_witness :
    Inventory.update idDigest ⟨cfgW, []⟩ repoAddW false =
        (⟨cfgW, [("a", recAW)]⟩, some (.fileError "b")) ∧
      ((∀ q r, recordsLookup ([] : List (PathBuf × Record)) q = some r →
          recordsLookup [("a", recAW)] q = some r) ∧
        (∀ q r2, recordsLookup ([] : List (PathBuf × Record)) q = none →
          recordsLookup [("a", recAW)] q = some r2 →
          addRecord idDigest cfgW.hash_algorithms repoAddW q = some r2)) :=
  ⟨rfl, C3_update_error_state idDigest ⟨cfgW, []⟩ repoAddW false ⟨cfgW, [("a", recAW)]⟩
    (.fileError "b") rfl⟩

/-- C4: after a successful `update`, every repository-only path has a freshly
computed record (exactly `build`'s `add_file` computation), inventory-only
records are removed iff `remove_missing`, records of paths in both sets are
unchanged byte for byte, and the result is invariant under changing the probes
of any path that is not repository-only (so paths present in both sets are
never re-read, re-sized or re-hashed). -/
theorem C4_update_success (D : DigestFn) (inv : Inventory) (repo : Repo) (rm : Bool)
    (rfiles : List PathBuf) (invF : Inventory)
    (hT : collectPaths (traverseEntries inv.configuration.skip_hidden "" repo.entries) =
      .ok rfiles)
    (h : inv.update D repo rm = (invF, none)) :
    (∀ p, p ∈ rfiles → p ∉ inv.records.map Prod.fst →
      ∃ r, addRecord D inv.configuration.hash_algorithms repo p = some r ∧
        recordsLookup invF.records p = some r) ∧
    (∀ p, p ∈ inv.records.map Prod.fst → p ∉ rfiles →
      recordsLookup invF.records p = if rm then none else recordsLookup inv.records p) ∧
    (∀ p, p ∈ inv.records.map Prod.fst → p ∈ rfiles →
      recordsLookup invF.records p = recordsLookup inv.records p) ∧
    (∀ meta2 content2,
      (∀ q, q ∈ rfiles → q ∉ inv.records.map Prod.fst →
        meta2 q = repo.meta q ∧ content2 q = repo.content q) →
      inv.update D { repo with meta := meta2, content := content2 } rm =
        inv.update D repo rm) := by
  have h' := h
  unfold Inventory.update at h'
  rw [hT] at h'
  dsimp only at h'
  cases hu : updateLoop D repo (diffL rfiles (inv.records.map Prod.fst)) inv
      (Hasher.new inv.configuration.hash_algorithms) with
  | mk inv3 oe =>
    rw [hu] at h'
    obtain ⟨hcfg, hnot, hlk, hok⟩ := updateLoop_spec D repo _ _ inv inv3 oe hu
    cases oe with
    | some e2 =>
      dsimp only at h'
      injection h' with h1 h2
      cases h2
    | none =>
      have hoknone := hok rfl
      have hFdesc : ∀ q, recordsLookup invF.records q =
          if rm = true ∧ q ∈ diffL (inv.records.map Prod.fst) rfiles then none
          else recordsLookup inv3.records q := by
        intro q
        dsimp only at h'
        cases rm with
        | false =>
          rw [if_neg (by simp)] at h'
          injection h' with h1 h2
          subst h1
          rw [if_neg (by simp)]
        | true =>
          rw [if_pos rfl] at h'
          injection h' with h1 h2
          subst h1
          show recordsLookup (List.foldl (fun m p => recordsRemove m p) inv3.records
            (diffL (inv.records.map Prod.fst) rfiles)) q = _
          rw [recordsLookup_foldl_remove]
          by_cases hq : q ∈ diffL (inv.records.map Prod.fst) rfiles
          · rw [if_pos hq, if_pos ⟨rfl, hq⟩]
          · rw [if_neg hq, if_neg (fun hc => hq hc.2)]
      refine ⟨?_, ?_, ?_, ?_⟩
      · intro p hpr hpk
        obtain ⟨r, har, hlp⟩ := hoknone p ((mem_diffL _ _ _).mpr ⟨hpr, hpk⟩)
        refine ⟨r, har, ?_⟩
        rw [hFdesc p, if_neg ?_, hlp]
        rintro ⟨_, hpd⟩
        exact hpk ((mem_diffL _ _ _).mp hpd).1
      · intro p hpk hpr
        have hpnf : p ∉ diffL rfiles (inv.records.map Prod.fst) := by
          rw [mem_diffL]
          rintro ⟨hpr', _⟩
          exact hpr hpr'
        have hp3 : recordsLookup inv3.records p = recordsLookup inv.records p :=
          hnot p hpnf
        rw [hFdesc p]
        cases rm with
        | false =>
          rw [if_neg (by simp), hp3]
          rfl
        | true =>
          rw [if_pos ⟨rfl, (mem_diffL _ _ _).mpr ⟨hpk, hpr⟩⟩]
          rfl
      · intro p hpk hpr
        have hpnf : p ∉ diffL rfiles (inv.records.map Prod.fst) := by
          rw [mem_diffL]
          rintro ⟨_, hnk⟩
          exact hnk hpk
        rw [hFdesc p, if_neg ?_, hnot p hpnf]
        rintro ⟨_, hpd⟩
        exact ((mem_diffL _ _ _).mp hpd).2 hpr
      · intro meta2 content2 hag
        have hag' : ∀ f ∈ diffL rfiles (inv.records.map Prod.fst),
            ({ repo with meta := meta2, content := content2 } : Repo).meta f = repo.meta f ∧
            ({ repo with meta := meta2, content := content2 } : Repo).content f =
              repo.content f := by
          intro f hf
          obtain ⟨hfr, hfk⟩ := (mem_diffL _ _ _).mp hf
          exact hag f hfr hfk
        have hu2 : updateLoop D { repo with meta := meta2, content := content2 }
            (diffL rfiles (inv.records.map Prod.fst)) inv
            (Hasher.new inv.configuration.hash_algorithms) = (inv3, none) := by
          rw [updateLoop_cong D { repo with meta := meta2, content := content2 } repo
            (diffL rfiles (inv.records.map Prod.fst)) hag' inv
            (Hasher.new inv.configuration.hash_algorithms)]
          exact hu
        cases rm with
        | false =>
          rw [update_eq_ok_keep D inv { repo with meta := meta2, content := content2 }
            rfiles inv3 hT hu2]
          rw [update_eq_ok_keep D inv repo rfiles inv3 hT hu]
        | true =>
          rw [update_eq_ok_remove D inv { repo with meta := meta2, content := content2 }
            rfiles inv3 hT hu2]
          rw [update_eq_ok_remove D inv repo rfiles inv3 hT hu]

/-- Witness for C4: updating `invW` against a tree with the tracked `"a"` and a
new empty file `"b"`, `remove_missing = false`. -/
theorem C4_update_success_witness :
    collectPaths (traverseEntries invW.configuration.skip_hidden "" repoABW.entries) =
        .ok ["a", "b"] ∧
      invW.update idDigest repoABW false = (⟨cfgW, [("a", recW), ("b", recAW)]⟩, none) ∧
      ((∀ p, p ∈ ["a", "b"] → p ∉ invW.records.map Prod.fst →
        ∃ r, addRecord idDigest invW.configuration.hash_algorithms repoABW p = some r ∧
          recordsLookup [("a", recW), ("b", recAW)] p = some r) ∧
      (∀ p, p ∈ invW.records.map Prod.fst → p ∉ ["a", "b"] →
        recordsLookup [("a", recW), ("b", recAW)] p =
          if false then none else recordsLookup invW.records p) ∧
      (∀ p, p ∈ invW.records.map Prod.fst → p ∈ ["a", "b"] →
        recordsLookup [("a", recW), ("b", recAW)] p = recordsLookup invW.records p) ∧
      (∀ meta2 content2,
        (∀ q, q ∈ ["a", "b"] → q ∉ invW.records.map Prod.fst →
          meta2 q = repoABW.meta q ∧ content2 q = repoABW.content q) →
        invW.update idDigest { repoABW with meta := meta2, content := content2 } false =
          invW.update idDigest repoABW false)) :=
  ⟨rfl, rfl, C4_update_success idDigest invW repoABW false ["a", "b"]
    ⟨cfgW, [("a", recW), ("b", recAW)]⟩ rfl rfl⟩

/-! ### Claims C8 and C10 -/

/-- C8: every record created by `build` carries a hash map keyed exactly by the
configuration's algorithm set, and a successful `update` preserves this
invariant — every record of the result is either an untouched old record or a
freshly computed one keyed by the same set. The `Pairwise` hypotheses state the
`BTreeSet` representation invariant of `hash_algorithms` (strictly ascending,
hence unique). -/
theorem C8_record_keys (D : DigestFn) (cfg : Configuration) (repo : Repo)
    (invB : Inventory) (inv : Inventory) (repo2 : Repo) (rm : Bool) (invF : Inventory)
    (hcfg : cfg.hash_algorithms.Pairwise fun a b => a.toNat < b.toNat)
    (hinv : inv.configuration.hash_algorithms.Pairwise fun a b => a.toNat < b.toNat) :
    (Inventory.build D cfg repo = .ok invB →
      ∀ p r, recordsLookup invB.records p = some r →
        r.hashes.map Prod.fst = cfg.hash_algorithms) ∧
    ((∀ p r, recordsLookup inv.records p = some r →
        r.hashes.map Prod.fst = inv.configuration.hash_algorithms) →
      inv.update D repo2 rm = (invF, none) →
      ∀ p r, recordsLookup invF.records p = some r →
        r.hashes.map Prod.fst = inv.configuration.hash_algorithms) := by
  constructor
  · intro hb p r hp
    unfold Inventory.build at hb
    obtain ⟨_, hlk⟩ := buildLoop_spec D repo _ _ _ _ hb
    rcases hlk p r hp with hold | har
    · simp [Inventory.new, recordsLookup] at hold
    · obtain ⟨size, bs, rfl⟩ := addRecord_shape _ _ _ _ _ har
      exact (record_new_recomputed D _ bs size hcfg).2
  · intro hpre hu p r hp
    unfold Inventory.update at hu
    cases hT : collectPaths
        (traverseEntries inv.configuration.skip_hidden "" repo2.entries) with
    | error e0 =>
      rw [hT] at hu
      dsimp only at hu
      injection hu with h1 h2
      cases h2
    | ok rfiles =>
      rw [hT] at hu
      dsimp only at hu
      cases hul : updateLoop D repo2 (diffL rfiles (inv.records.map Prod.fst)) inv
          (Hasher.new inv.configuration.hash_algorithms) with
      | mk inv3 oe =>
        rw [hul] at hu
        obtain ⟨hcfg3, hnot, hlk, hok⟩ := updateLoop_spec D repo2 _ _ inv inv3 oe hul
        cases oe with
        | some e2 =>
          dsimp only at hu
          injection hu with h1 h2
          cases h2
        | none =>
          have hp3 : recordsLookup inv3.records p = some r := by
            dsimp only at hu
            cases rm with
            | false =>
              rw [if_neg (by simp)] at hu
              injection hu with h1 h2
              rw [← h1] at hp
              exact hp
            | true =>
              rw [if_pos rfl] at hu
              injection hu with h1 h2
              rw [← h1] at hp
              dsimp only at hp
              rw [recordsLookup_foldl_remove] at hp
              by_cases hq : p ∈ diffL (inv.records.map Prod.fst) rfiles
              · rw [if_pos hq] at hp
                cases hp
              · rw [if_neg hq] at hp
                exact hp
          rcases hlk p r hp3 with hold | ⟨_, har⟩
          · exact hpre p r hold
          · obtain ⟨size, bs, rfl⟩ := addRecord_shape _ _ _ _ _ har
            exact (record_new_recomputed D _ bs size hinv).2

/-- Witness for C8: build over the one-file fixture and update of `invW`
against the two-file fixture, both with the singleton algorithm set. -/
theorem C8_record_keys_witness :
    (cfgW.hash_algorithms.Pairwise fun a b => a.toNat < b.toNat) ∧
      (invW.configuration.hash_algorithms.Pairwise fun a b => a.toNat < b.toNat) ∧
      ((Inventory.build idDigest cfgW repoW = .ok ⟨cfgW, [("a", recW)]⟩ →
        ∀ p r, recordsLookup (⟨cfgW, [("a", recW)]⟩ : Inventory).records p = some r →
          r.hashes.map Prod.fst = cfgW.hash_algorithms) ∧
      ((∀ p r, recordsLookup invW.records p = some r →
          r.hashes.map Prod.fst = invW.configuration.hash_algorithms) →
        invW.update idDigest repoABW false = (⟨cfgW, [("a", recW), ("b", recAW)]⟩, none) →
        ∀ p r, recordsLookup (⟨cfgW, [("a", recW), ("b", recAW)]⟩ : Inventory).records p =
            some r →
          r.hashes.map Prod.fst = invW.configuration.hash_algorithms)) :=
  ⟨by simp [cfgW], by simp [invW, cfgW],
    C8_record_keys idDigest cfgW repoW ⟨cfgW, [("a", recW)]⟩ invW repoABW false
      ⟨cfgW, [("a", recW), ("b", recAW)]⟩ (by simp [cfgW]) (by simp [invW, cfgW])⟩

/-- C10: the non-emptiness requirement on the algorithm set is only a debug
assertion (absent in release builds): `Hasher::new` accepts an empty algorithm
list, `compute` still fully reads the stream and returns the empty pair list,
and `build` with an empty `hash_algorithms` set succeeds (when every discovered
file is readable), producing records whose hash maps are empty. -/
theorem C10_empty_algorithms (D : DigestFn) (cfg : Configuration) (repo : Repo)
    (src : List ReadResult) (bs : List Nat)
    (hcfg : cfg.hash_algorithms = [])
    (hsb : streamBytes src = some bs)
    (hall : ∀ it ∈ traverseEntries cfg.skip_hidden "" repo.entries, ∃ p, it = .ok p ∧
      ∃ r, addRecord D [] repo p = some r) :
    (Hasher.new ([] : List HashAlgorithm)).digests = [] ∧
      Hasher.compute D (Hasher.new []) src = (Hasher.new [], .ok []) ∧
      ∃ inv2, Inventory.build D cfg repo = .ok inv2 ∧
        ∀ p r, recordsLookup inv2.records p = some r → r.hashes = [] := by
  refine ⟨rfl, ?_, ?_⟩
  · rw [compute_new_ok D [] src bs hsb]
    rfl
  · unfold Inventory.build
    rw [hcfg]
    obtain ⟨inv2, h2⟩ := buildLoop_ok_exists D repo []
      (traverseEntries cfg.skip_hidden "" repo.entries) (Inventory.new cfg) hall
    refine ⟨inv2, h2, ?_⟩
    intro p r hp
    rcases (buildLoop_spec D repo [] _ _ _ h2).2 p r hp with hold | har
    · simp [Inventory.new, recordsLookup] at hold
    · obtain ⟨size, bs2, rfl⟩ := addRecord_shape _ _ _ _ _ har
      rfl

/-- Witness for C10: a build with the empty algorithm set over the one-file
fixture. -/
theorem C10_empty_algorithms_witness :
    cfgEmptyW.hash_algorithms = [] ∧
      streamBytes [.chunk [2]] = some [2] ∧
      (∀ it ∈ traverseEntries cfgEmptyW.skip_hidden "" repoW.entries, ∃ p, it = .ok p ∧
        ∃ r, addRecord idDigest [] repoW p = some r) ∧
      ((Hasher.new ([] : List HashAlgorithm)).digests = [] ∧
        Hasher.compute idDigest (Hasher.new []) [.chunk [2]] = (Hasher.new [], .ok []) ∧
        ∃ inv2, Inventory.build idDigest cfgEmptyW repoW = .ok inv2 ∧
          ∀ p r, recordsLookup inv2.records p = some r → r.hashes = []) := by
  have hall : ∀ it ∈ traverseEntries cfgEmptyW.skip_hidden "" repoW.entries, ∃ p,
      it = .ok p ∧ ∃ r, addRecord idDigest [] repoW p = some r := by
    intro it hit
    have : it = .ok "a" := by
      simpa [repoW, cfgEmptyW, traverseEntries, traverseEntry, is_hidden, pathJoin]
        using hit
    exact ⟨"a", this, ⟨⟨[], 1⟩, rfl⟩⟩
  exact ⟨rfl, rfl, hall,
    C10_empty_algorithms idDigest cfgEmptyW repoW [.chunk [2]] [2] rfl rfl hall⟩

/-! ### Claim C9: hidden entries under `skip_hidden` -/

theorem traverseEntries_append (s : Bool) (pre : String) (a b : List Entry) :
    traverseEntries s pre (a ++ b) = traverseEntries s pre a ++ traverseEntries s pre b := by
  induction a with
  | nil => rfl
  | cons e es ih =>
    rw [List.cons_append, traverseEntries, traverseEntries, ih, List.append_assoc]

mutual

/-- A `skip_hidden` traversal cannot distinguish an entry from its pruned
form. -/
theorem traverseEntry_prune (pre : String) :
    ∀ e : Entry, traverseEntries true pre (pruneEntry e) = traverseEntry true pre e
  | .file n => by
    by_cases h : is_hidden n
    · simp [pruneEntry, traverseEntry, traverseEntries, h]
    · simp [pruneEntry, traverseEntry, traverseEntries, h]
  | .dir n es => by
    by_cases h : is_hidden n
    · simp [pruneEntry, traverseEntry, traverseEntries, h]
    · have hrec := traverseEntries_prune (pathJoin pre n) es
      simp [pruneEntry, traverseEntry, traverseEntries, h, hrec]
  | .badDir n => by
    by_cases h : is_hidden n
    · simp [pruneEntry, traverseEntry, traverseEntries, h]
    · simp [pruneEntry, traverseEntry, traverseEntries, h]

/-- A `skip_hidden` traversal cannot distinguish an entry list from its pruned
form. -/
theorem traverseEntries_prune (pre : String) :
    ∀ es : List Entry, traverseEntries true pre (pruneEntries es) = traverseEntries true pre es
  | [] => rfl
  | e :: es => by
    rw [pruneEntries, traverseEntries_append, traverseEntry_prune pre e,
      traverseEntries_prune pre es, traverseEntries]

end

/-- `check` depends on the repository only through the traversal's item
sequence and the probe functions. -/
theorem check_entries_cong (D : DigestFn) (inv : Inventory) (r1 r2 : Repo) (ch : Bool)
    (ht : traverseEntries inv.configuration.skip_hidden "" r1.entries =
      traverseEntries inv.configuration.skip_hidden "" r2.entries)
    (hm : r1.meta = r2.meta) (hc : r1.content = r2.content) :
    inv.check D r1 ch = inv.check D r2 ch := by
  unfold Inventory.check
  rw [ht]
  cases collectPaths (traverseEntries inv.configuration.skip_hidden "" r2.entries) with
  | error e => rfl
  | ok rfiles =>
    dsimp only
    exact checkLoop_cong D r1 r2 inv.records ch
      (interL (inv.records.map Prod.fst) rfiles)
      (fun f _ => ⟨congrFun hm f, Or.inl (congrFun hc f)⟩) _ _

/-- `update` depends on the repository only through the traversal's item
sequence and the probe functions. -/
theorem update_entries_cong (D : DigestFn) (inv : Inventory) (r1 r2 : Repo) (rm : Bool)
    (ht : traverseEntries inv.configuration.skip_hidden "" r1.entries =
      traverseEntries inv.configuration.skip_hidden "" r2.entries)
    (hm : r1.meta = r2.meta) (hc : r1.content = r2.content) :
    inv.update D r1 rm = inv.update D r2 rm := by
  unfold Inventory.update
  rw [ht]
  cases collectPaths (traverseEntries inv.configuration.skip_hidden "" r2.entries) with
  | error e => rfl
  | ok rfiles =>
    dsimp only
    rw [updateLoop_cong D r1 r2 (diffL rfiles (inv.records.map Prod.fst))
      (fun f _ => ⟨congrFun hm f, congrFun hc f⟩) inv
      (Hasher.new inv.configuration.hash_algorithms)]

/-- C9: `check` and `update` traverse with the `skip_hidden` flag stored in the
inventory's own configuration (there is no caller-supplied flag); when that
flag is set, two repositories whose trees differ only in hidden entries (equal
pruned forms) with the same probes are indistinguishable — `check` returns the
same result and `update` the same final state and error, so hidden files added
to or removed from the repository never produce a failure, a new record, or a
removal. -/
theorem C9_skip_hidden_invisible (D : DigestFn) (inv : Inventory) (r1 r2 : Repo)
    (ch : Bool) (rm : Bool)
    (hsk : inv.configuration.skip_hidden = true)
    (hprune : pruneEntries r1.entries = pruneEntries r2.entries)
    (hm : r1.meta = r2.meta) (hc : r1.content = r2.content) :
    inv.check D r1 ch = inv.check D r2 ch ∧ inv.update D r1 rm = inv.update D r2 rm := by
  have ht : traverseEntries inv.configuration.skip_hidden "" r1.entries =
      traverseEntries inv.configuration.skip_hidden "" r2.entries := by
    rw [hsk, ← traverseEntries_prune "" r1.entries, ← traverseEntries_prune "" r2.entries,
      hprune]
  exact ⟨check_entries_cong D inv r1 r2 ch ht hm hc,
    update_entries_cong D inv r1 r2 rm ht hm hc⟩

/-- Witness for C9: adding the hidden file `".h"` to an empty repository is
invisible to both `check` and `update` for an inventory built with
`skip_hidden = true`. -/
theorem C9_skip_hidden_invisible_witness :
    (⟨cfgHiddenW, []⟩ : Inventory).configuration.skip_hidden = true ∧
      pruneEntries repoHid1W.entries = pruneEntries repoHid2W.entries ∧
      repoHid1W.meta = repoHid2W.meta ∧
      repoHid1W.content = repoHid2W.content ∧
      (Inventory.check idDigest ⟨cfgHiddenW, []⟩ repoHid1W true =
          Inventory.check idDigest ⟨cfgHiddenW, []⟩ repoHid2W true ∧
        Inventory.update idDigest ⟨cfgHiddenW, []⟩ repoHid1W false =
          Inventory.update idDigest ⟨cfgHiddenW, []⟩ repoHid2W false) :=
  ⟨rfl, rfl, rfl, rfl,
    C9_skip_hidden_invisible idDigest ⟨cfgHiddenW, []⟩ repoHid1W repoHid2W true false
      rfl rfl rfl rfl⟩

end Inventorize
